import Mathlib

/-! OgmaNeo: the chunk sparse-feature encoder (`source/neo/SparseFeaturesChunk.cpp`).

A shallow embedding of `SparseFeaturesChunk`: its double-buffered tensors, the
host-side pipeline (`activate`, `stepEnd`, `learn`, `inhibit`, `clearMemory`),
construction, and `save` / `load`.

Conventions of the embedding.

* `cl_int` extents are natural numbers (the constructor allocates images of these
  extents). `cl_float` values are rationals; the `float` arithmetic of the host
  code (chunk counts, scale factors, reverse radii) rounds to single precision.
* An OpenCL image is its extent, its channel order and a map from coordinates to
  the stored texel. A two-dimensional image has depth `1`.
* `std::array<cl::Image, 2>` is `DoubleBuffer`, with `front` (index `_front`) and
  `back` (index `_back`). Each image is owned by exactly one slot, so a swap of
  handles is a swap of values.
* The numeric kernels whose source text is not part of `SparseFeaturesChunk.cpp`
  (`sfcDeriveInputs`, `sfcAddSample`, `sfcStimulus`, `sfcActivate`,
  `sfcLearnWeights`) are parameters, gathered in `Kernels`: each maps the images it
  receives to the new content of the image it is given to write.
* The two inhibit kernels and the image helpers `ogmaneo::save` / `ogmaneo::load`
  are not part of the two source files either; they are modelled from the
  specification and marked so.
* `assert` aborts: `load` returns `Except.error` carrying the encoder as it stood
  at the last completed statement, or `Except.ok` with the loaded encoder.
-/

namespace ogmaneo

/-! ## Scalars, images, double buffers -/

/-- Pair of `cl_int`. -/
structure cl_int2 where
  x : Nat
  y : Nat
deriving DecidableEq, Repr

/-- Pair of `cl_float`. -/
structure cl_float2 where
  x : ℚ
  y : ℚ
deriving DecidableEq

/-- Four `cl_float`, the colour type of `enqueueFillImage` and `write_imagef`. -/
structure cl_float4 where
  x : ℚ
  y : ℚ
  z : ℚ
  w : ℚ
deriving DecidableEq

/-- Extent or origin of an image region, `cl::array<cl::size_type, 3>`. -/
structure size3 where
  x : Nat
  y : Nat
  z : Nat
deriving DecidableEq, Repr

/-- Channel orders used by the encoder: `CL_R` stores one channel, `CL_RG` two. -/
inductive ChannelOrder where
  | CL_R
  | CL_RG
deriving DecidableEq, Repr

/-- Stored channels of one image cell. A `CL_R` image keeps `g = 0`. -/
structure Texel where
  r : ℚ
  g : ℚ
deriving DecidableEq

/-- Conversion of a colour to the channels an image of the given order stores:
the red channel for `CL_R`, red and green for `CL_RG`; the other components of
the colour are dropped. -/
def texelOf : ChannelOrder → cl_float4 → Texel
  | .CL_R, c => ⟨c.x, 0⟩
  | .CL_RG, c => ⟨c.x, c.y⟩

/-- Device image (`cl::Image2D` when `depth = 1`, `cl::Image3D` otherwise). -/
structure Image where
  width : Nat
  height : Nat
  depth : Nat
  order : ChannelOrder
  pix : Nat → Nat → Nat → Texel

instance : Inhabited Image := ⟨⟨0, 0, 0, .CL_R, fun _ _ _ => ⟨0, 0⟩⟩⟩

/-- Both instances of a double-buffered tensor. -/
structure DoubleBuffer where
  front : Image
  back : Image

/-- Effect of `std::swap(db[_front], db[_back])`. -/
def DoubleBuffer.swap (db : DoubleBuffer) : DoubleBuffer :=
  { front := db.back, back := db.front }

/-- Effect of `cl::CommandQueue::enqueueFillImage`: every cell of the region takes
the colour, converted to the image's channel order. A region that does not lie
inside the image is rejected by the queue and the image keeps its content. -/
def enqueueFillImage (img : Image) (color : cl_float4) (origin region : size3) : Image :=
  if origin.x + region.x ≤ img.width ∧ origin.y + region.y ≤ img.height
      ∧ origin.z + region.z ≤ img.depth then
    { img with
      pix := fun x y z =>
        if origin.x ≤ x ∧ x < origin.x + region.x ∧ origin.y ≤ y ∧ y < origin.y + region.y
            ∧ origin.z ≤ z ∧ z < origin.z + region.z then
          texelOf img.order color
        else img.pix x y z }
  else img

/-- Effect of `write_imagef` on a two-dimensional image at one position. -/
def Image.write (img : Image) (p : cl_int2) (color : cl_float4) : Image :=
  { img with
    pix := fun x y z =>
      if x = p.x ∧ y = p.y ∧ z = 0 then texelOf img.order color else img.pix x y z }

/-- The origin `{ 0, 0, 0 }`. -/
def zeroOrigin : size3 := ⟨0, 0, 0⟩

/-- The colour `{ 0.0f, 0.0f, 0.0f, 0.0f }`. -/
def zeroColor : cl_float4 := ⟨0, 0, 0, 0⟩

/-- Allocation of a double-buffered image of the given extent and channel order
(`createDoubleBuffer2D`, `createDoubleBuffer3D`). A fresh image holds whatever
the device memory holds: `mem k` is the content found by allocation number `k`. -/
def createDoubleBuffer (mem : Nat → Nat → Nat → Nat → Texel) (k : Nat) (size : size3)
    (order : ChannelOrder) : DoubleBuffer :=
  { front := ⟨size.x, size.y, size.z, order, mem (2 * k)⟩
    back := ⟨size.x, size.y, size.z, order, mem (2 * k + 1)⟩ }

/-- Effect of `randomUniform` on an image: every cell of the extent takes a drawn
value, `rnd x y z` being the value drawn for that cell. -/
def randomUniform (img : Image) (size : size3) (rnd : Nat → Nat → Nat → ℚ) : Image :=
  { img with
    pix := fun x y z =>
      if x < size.x ∧ y < size.y ∧ z < size.z then texelOf img.order ⟨rnd x y z, 0, 0, 0⟩
      else img.pix x y z }

/-! ## Data model of the encoder -/

/-- Configuration of one visible layer (`SparseFeaturesChunk::VisibleLayerDesc`). -/
structure VisibleLayerDesc where
  _size : cl_int2
  _radius : Nat
  _ignoreMiddle : Bool
  _weightAlpha : ℚ
  _lambda : ℚ
deriving DecidableEq

instance : Inhabited VisibleLayerDesc := ⟨⟨⟨0, 0⟩, 0, false, 0, 0⟩⟩

/-- Runtime state of one visible layer (`SparseFeaturesChunk::VisibleLayer`). -/
structure VisibleLayer where
  _derivedInput : DoubleBuffer
  _samples : DoubleBuffer
  _weights : DoubleBuffer
  _hiddenToVisible : cl_float2
  _visibleToHidden : cl_float2
  _chunkToVisible : cl_float2
  _reverseRadii : cl_int2

/-- The encoder (`SparseFeaturesChunk`): configuration and tensors. -/
structure SparseFeaturesChunk where
  _visibleLayerDescs : List VisibleLayerDesc
  _hiddenSize : cl_int2
  _chunkSize : cl_int2
  _numSamples : Nat
  _visibleLayers : List VisibleLayer
  _hiddenStates : DoubleBuffer
  _hiddenActivations : DoubleBuffer
  _chunkWinners : DoubleBuffer
  _hiddenSummationTemp : DoubleBuffer

/-- Content of an image, cell by cell. -/
abbrev Pixels := Nat → Nat → Nat → Texel

/-- Effect of a kernel on the image it writes: the extent and the channel order
stay, the content is replaced. -/
def Image.withPixels (img : Image) (p : Pixels) : Image := { img with pix := p }

/-- The numeric kernels of the encoder's program. Each field is one kernel: it
receives the images and scalars set as its arguments and the dispatch range, and
returns the content of the image it writes (its `Front` argument) after the
dispatch. -/
structure Kernels where
  sfcDeriveInputs : (inputs derivedBack derivedFront : Image) → (lambda : ℚ)
    → (range : cl_int2) → Pixels
  sfcAddSample : (derivedFront samplesBack samplesFront : Image) → (numSamples : Nat)
    → (range : cl_int2) → Pixels
  sfcStimulus : (samplesFront sumBack sumFront weightsBack : Image) → (visibleSize : cl_int2)
    → (chunkToVisible : cl_float2) → (chunkSize : cl_int2) → (radius numSamples : Nat)
    → (ignoreMiddle : Bool) → (range : cl_int2) → Pixels
  sfcActivate : (sumBack hiddenStatesBack hiddenActivationsFront : Image)
    → (range : cl_int2) → Pixels
  sfcLearnWeights : (chunkWinnersFront chunkWinnersBack samplesFront weightsBack
      weightsFront : Image) → (hiddenSize visibleSize : cl_int2) → (chunkToVisible : cl_float2)
    → (chunkSize : cl_int2) → (radius : Nat) → (weightAlpha : ℚ) → (numSamples : Nat)
    → (range : cl_int2) → Pixels

/-! ## Chunk grid and chunk inhibition -/

/-! ### Single-precision arithmetic

The host code computes the chunk counts, the scale factors and the reverse radii in
`float`. A non-negative `float` value is a significand times a power of two; the
operations below round their exact result to 24 significant bits, to nearest with
ties to even. All values that occur are non-negative and far inside the exponent
range of `float`. -/

/-- Position of the leading bit of `n`, with `fuel` steps. -/
def log2Aux : Nat → Nat → Nat
  | 0, _ => 0
  | fuel + 1, n => if n < 2 then 0 else log2Aux fuel (n / 2) + 1

/-- The largest `k` with `2 ^ k ≤ n`, for `n > 0`. -/
def floorLog2 (n : Nat) : Nat := log2Aux n n

/-- The integer nearest to `n / d`, the even one of the two when `n / d` lies half
way between two integers. -/
def roundNearestEven (n d : Nat) : Nat :=
  if 2 * (n % d) < d then n / d
  else if d < 2 * (n % d) then n / d + 1
  else if n / d % 2 = 0 then n / d else n / d + 1

/-- A non-negative value of type `float`: `m * 2 ^ e`. -/
structure float32 where
  m : Nat
  e : Int
deriving DecidableEq, Repr

/-- The `float` nearest to the quotient `n / d`: with `E` the exponent of the
quotient (`2 ^ E ≤ n / d < 2 ^ (E + 1)`), the quotient is rounded to a multiple of
`2 ^ (E - 23)`. A zero numerator gives zero; a zero denominator is outside the
model (the source divides by zero there) and gives zero as well. -/
def float32.ofQuotient (n d : Nat) : float32 :=
  if n = 0 ∨ d = 0 then ⟨0, 0⟩
  else
    let E : Int := (floorLog2 n : Int) - (floorLog2 d : Int)
      - (if n * 2 ^ floorLog2 d < d * 2 ^ floorLog2 n then 1 else 0)
    if E ≤ 23 then ⟨roundNearestEven (n * 2 ^ (23 - E).toNat) d, E - 23⟩
    else ⟨roundNearestEven n (d * 2 ^ (E - 23).toNat), E - 23⟩

/-- Effect of `std::ceil` followed by the conversion to `int`. -/
def float32.ceil (f : float32) : Nat :=
  if 0 ≤ f.e then f.m * 2 ^ f.e.toNat
  else (f.m + 2 ^ (-f.e).toNat - 1) / 2 ^ (-f.e).toNat

/-- Effect of `static_cast<float>` on a non-negative `int`: the value of the
resulting `float`, which is an integer (`n` itself below `2 ^ 24`). -/
def intToFloat (n : Nat) : Nat := (float32.ofQuotient n 1).ceil

/-- The `float` product of a `float` and an integer-valued `float`. -/
def float32.mulInt (f : float32) (b : Nat) : float32 :=
  if 0 ≤ f.e then float32.ofQuotient (f.m * b * 2 ^ f.e.toNat) 1
  else float32.ofQuotient (f.m * b) (2 ^ (-f.e).toNat)

/-- The rational number that a `float` value is. -/
def float32.toRat (f : float32) : ℚ := (f.m : ℚ) * (2 : ℚ) ^ f.e

/-- The quotient of `hidden` by `chunk` rounded up, in exact arithmetic: the ceiling
division by which section 3 of the specification derives the chunk grid. -/
def chunksExact (hidden chunk : Nat) : Nat := (hidden + chunk - 1) / chunk

/-- Number of chunks along one axis, as the source computes it:
`static_cast<int>(std::ceil(static_cast<float>(hidden) / static_cast<float>(chunk)))`.
It is the quotient rounded up for every hidden extent below `2 ^ 24`
(`chunksIn_eq_chunksExact`) and can fall short of it above. -/
def chunksIn (hidden chunk : Nat) : Nat :=
  (float32.ofQuotient (intToFloat hidden) (intToFloat chunk)).ceil

/-- Work items of a two-dimensional `cl::NDRange(nx, ny)`. -/
def ndRange (n : cl_int2) : List cl_int2 :=
  (List.range (n.x * n.y)).map fun i => ⟨i % n.x, i / n.x⟩

/-- Rank of an offset in the row-major scan of a chunk. -/
def rowMajor (chunkSize d : cl_int2) : Nat := d.y * chunkSize.x + d.x

/-- Hidden position of offset `d` in chunk `c`. -/
def hiddenPosition (chunkSize c d : cl_int2) : cl_int2 :=
  ⟨c.x * chunkSize.x + d.x, c.y * chunkSize.y + d.y⟩

/-- Modelled from the spec: the kernel source of `sfcInhibit` / `sfcInhibitOther` is
not among the sources. The offsets of a chunk that fall inside the hidden grid
(edge chunks are narrower), in row-major offset order. -/
def chunkUnits (hiddenSize chunkSize c : cl_int2) : List cl_int2 :=
  (ndRange chunkSize).filter fun d =>
    decide ((hiddenPosition chunkSize c d).x < hiddenSize.x
      ∧ (hiddenPosition chunkSize c d).y < hiddenSize.y)

/-- Activation of the hidden unit at offset `d` of chunk `c`. -/
def activationAt (activations : Image) (chunkSize c d : cl_int2) : ℚ :=
  (activations.pix (hiddenPosition chunkSize c d).x (hiddenPosition chunkSize c d).y 0).r

/-- Modelled from the spec: the scan that selects the unit with maximal key, the
first one met winning ties: a later unit replaces the current best only when its
key is strictly larger. -/
def scanMax (key : cl_int2 → ℚ) (best : cl_int2) (rest : List cl_int2) : cl_int2 :=
  rest.foldl (fun b d => if key b < key d then d else b) best

/-- Modelled from the spec: the winner of chunk `c`, as an offset inside the chunk
(section 4.2 step 4: maximal activation, ties broken by row-major offset order). -/
def chunkWinner (activations : Image) (hiddenSize chunkSize c : cl_int2) : cl_int2 :=
  match chunkUnits hiddenSize chunkSize c with
  | [] => ⟨0, 0⟩
  | d :: ds => scanMax (activationAt activations chunkSize c) d ds

/-- Modelled from the spec: what one work item of the inhibit kernels writes into the
state image: `1` at the winner of its chunk and `0` at every other unit of the chunk. -/
def inhibitChunk (activations : Image) (hiddenSize chunkSize : cl_int2) (states : Image)
    (c : cl_int2) : Image :=
  (chunkUnits hiddenSize chunkSize c).foldl
    (fun st d =>
      st.write (hiddenPosition chunkSize c d)
        (if d = chunkWinner activations hiddenSize chunkSize c then ⟨1, 0, 0, 0⟩
         else ⟨0, 0, 0, 0⟩))
    states

/-- Modelled from the spec: the kernel `sfcInhibitOther` (section 4.3), dispatched
over `range`: one work item per chunk, writing only the state image. -/
def sfcInhibitOther (activations states : Image) (hiddenSize chunkSize range : cl_int2) :
    Image :=
  (ndRange range).foldl (inhibitChunk activations hiddenSize chunkSize) states

/-- Modelled from the spec: the kernel `sfcInhibit` (section 4.2 step 4), dispatched
over `range`: one work item per chunk, writing the state image and recording the
winner's offset in the chunk-winner image. Returns `(states, chunkWinners)`. -/
def sfcInhibit (activations states chunkWinners : Image)
    (hiddenSize chunkSize range : cl_int2) : Image × Image :=
  (ndRange range).foldl
    (fun s c =>
      (inhibitChunk activations hiddenSize chunkSize s.1 c,
       s.2.write c
        ⟨(chunkWinner activations hiddenSize chunkSize c).x,
         (chunkWinner activations hiddenSize chunkSize c).y, 0, 0⟩))
    (states, chunkWinners)

/-! ## Construction -/

/-- Extent of a two-dimensional image of the given size. -/
def region2 (size : cl_int2) : size3 := ⟨size.x, size.y, 1⟩

/-- Value of a 32-bit `int` after an operation whose exact result is `x`: the result
wrapped into the two's-complement range. -/
def wrapInt (x : Int) : Int := (x + 2147483648) % 4294967296 - 2147483648

/-- One iteration of the constructor's loop "Create layers", for layer `vli`. The
scale factors are the `float` quotients, the reverse radii go through the `float`
product, `std::ceil` and the `float` sum with 1, and `numWeights` is 32-bit `int`
arithmetic; an image extent that comes out negative is taken as 0. -/
def createLayer (mem : Nat → Nat → Nat → Nat → Texel) (rnd : Nat → Nat → Nat → Nat → ℚ)
    (hiddenSize chunkSize : cl_int2) (numSamples : Nat) (vli : Nat) (vld : VisibleLayerDesc) :
    VisibleLayer :=
  let chunksInX := chunksIn hiddenSize.x chunkSize.x
  let chunksInY := chunksIn hiddenSize.y chunkSize.y
  let hiddenToVisible : cl_float2 :=
    ⟨(float32.ofQuotient (intToFloat vld._size.x) (intToFloat hiddenSize.x)).toRat,
     (float32.ofQuotient (intToFloat vld._size.y) (intToFloat hiddenSize.y)).toRat⟩
  let visibleToHiddenX := float32.ofQuotient (intToFloat hiddenSize.x) (intToFloat vld._size.x)
  let visibleToHiddenY := float32.ofQuotient (intToFloat hiddenSize.y) (intToFloat vld._size.y)
  let visibleToHidden : cl_float2 := ⟨visibleToHiddenX.toRat, visibleToHiddenY.toRat⟩
  let chunkToVisible : cl_float2 :=
    ⟨(float32.ofQuotient (intToFloat vld._size.x) (intToFloat chunksInX)).toRat,
     (float32.ofQuotient (intToFloat vld._size.y) (intToFloat chunksInY)).toRat⟩
  let reverseRadii : cl_int2 :=
    ⟨intToFloat ((visibleToHiddenX.mulInt (intToFloat vld._radius)).ceil + 1),
     intToFloat ((visibleToHiddenY.mulInt (intToFloat vld._radius)).ceil + 1)⟩
  let weightDiam := wrapInt ((vld._radius : Int) * 2 + 1)
  let numWeights := wrapInt (wrapInt (weightDiam * weightDiam) * (numSamples : Int))
  let weightsSize : size3 := ⟨hiddenSize.x, hiddenSize.y, numWeights.toNat⟩
  let weights := createDoubleBuffer mem (3 * vli) weightsSize .CL_R
  let weights := { weights with back := randomUniform weights.back weightsSize (rnd vli) }
  let derivedInput := createDoubleBuffer mem (3 * vli + 1) (region2 vld._size) .CL_RG
  let derivedInput :=
    { derivedInput with
      back := enqueueFillImage derivedInput.back zeroColor zeroOrigin
        ⟨vld._size.x, vld._size.y, 1⟩ }
  let samples :=
    createDoubleBuffer mem (3 * vli + 2) ⟨vld._size.x, vld._size.y, numSamples⟩ .CL_R
  let samples :=
    { samples with
      back := enqueueFillImage samples.back zeroColor zeroOrigin
        ⟨vld._size.x, vld._size.y, numSamples⟩ }
  { _derivedInput := derivedInput
    _samples := samples
    _weights := weights
    _hiddenToVisible := hiddenToVisible
    _visibleToHidden := visibleToHidden
    _chunkToVisible := chunkToVisible
    _reverseRadii := reverseRadii }

/-- The constructor's loop "Create layers" over the layer descriptions from index `vli`. -/
def createLayers (mem : Nat → Nat → Nat → Nat → Texel) (rnd : Nat → Nat → Nat → Nat → ℚ)
    (hiddenSize chunkSize : cl_int2) (numSamples : Nat) :
    Nat → List VisibleLayerDesc → List VisibleLayer
  | _, [] => []
  | vli, vld :: vlds =>
    createLayer mem rnd hiddenSize chunkSize numSamples vli vld
      :: createLayers mem rnd hiddenSize chunkSize numSamples (vli + 1) vlds

/-- The constructor `SparseFeaturesChunk::SparseFeaturesChunk`. `mem` is the content
of freshly allocated device memory and `rnd` the values drawn by `randomUniform`
(layer, then cell). -/
def SparseFeaturesChunk.construct (mem : Nat → Nat → Nat → Nat → Texel)
    (rnd : Nat → Nat → Nat → Nat → ℚ) (visibleLayerDescs : List VisibleLayerDesc)
    (hiddenSize chunkSize : cl_int2) (numSamples : Nat) : SparseFeaturesChunk :=
  let hiddenRegion : size3 := ⟨hiddenSize.x, hiddenSize.y, 1⟩
  let chunksInX := chunksIn hiddenSize.x chunkSize.x
  let chunksInY := chunksIn hiddenSize.y chunkSize.y
  let n := visibleLayerDescs.length
  let hiddenStates := createDoubleBuffer mem (3 * n) (region2 hiddenSize) .CL_R
  let hiddenActivations := createDoubleBuffer mem (3 * n + 1) (region2 hiddenSize) .CL_R
  let chunkWinners := createDoubleBuffer mem (3 * n + 2) (region2 ⟨chunksInX, chunksInY⟩) .CL_RG
  let hiddenSummationTemp := createDoubleBuffer mem (3 * n + 3) (region2 hiddenSize) .CL_R
  { _visibleLayerDescs := visibleLayerDescs
    _hiddenSize := hiddenSize
    _chunkSize := chunkSize
    _numSamples := numSamples
    _visibleLayers := createLayers mem rnd hiddenSize chunkSize numSamples 0 visibleLayerDescs
    _hiddenStates :=
      { hiddenStates with
        back := enqueueFillImage hiddenStates.back ⟨0, 1, 0, 0⟩ zeroOrigin hiddenRegion }
    _hiddenActivations :=
      { hiddenActivations with
        back := enqueueFillImage hiddenActivations.back ⟨0, 0, 0, 0⟩ zeroOrigin hiddenRegion }
    _chunkWinners := chunkWinners
    _hiddenSummationTemp := hiddenSummationTemp }

/-! ## The pipeline -/

/-- The loop "Find up stimulus" of `activate` over the remaining layers: derive,
add sample, stimulus, then the swap of the summation buffer. The descriptions and
the visible states advance with the layers (`_visibleLayerDescs[vli]`,
`visibleStates[vli]`). Returns the layers and the summation buffer after the loop. -/
def activateLoop (K : Kernels) (hiddenSize chunkSize : cl_int2) (numSamples : Nat) :
    List VisibleLayer → List VisibleLayerDesc → List Image → DoubleBuffer
      → List VisibleLayer × DoubleBuffer
  | [], _, _, sum => ([], sum)
  | vl :: vls, vlds, visibleStates, sum =>
    let vld := vlds.headD default
    let derivedFront :=
      vl._derivedInput.front.withPixels
        (K.sfcDeriveInputs (visibleStates.headD default) vl._derivedInput.back
          vl._derivedInput.front vld._lambda vld._size)
    let samplesFront :=
      vl._samples.front.withPixels
        (K.sfcAddSample derivedFront vl._samples.back vl._samples.front numSamples vld._size)
    let sumFront :=
      sum.front.withPixels
        (K.sfcStimulus samplesFront sum.back sum.front vl._weights.back vld._size
          vl._chunkToVisible chunkSize vld._radius numSamples vld._ignoreMiddle hiddenSize)
    let vl1 : VisibleLayer :=
      { vl with
        _derivedInput := { vl._derivedInput with front := derivedFront }
        _samples := { vl._samples with front := samplesFront } }
    let sum1 : DoubleBuffer := DoubleBuffer.swap { sum with front := sumFront }
    let r := activateLoop K hiddenSize chunkSize numSamples vls vlds.tail visibleStates.tail sum1
    (vl1 :: r.1, r.2)

/-- The method `SparseFeaturesChunk::activate`. -/
def SparseFeaturesChunk.activate (e : SparseFeaturesChunk) (K : Kernels)
    (visibleStates : List Image) : SparseFeaturesChunk :=
  let hiddenRegion : size3 := ⟨e._hiddenSize.x, e._hiddenSize.y, 1⟩
  let sum0 : DoubleBuffer :=
    { e._hiddenSummationTemp with
      back := enqueueFillImage e._hiddenSummationTemp.back ⟨0, 0, 0, 0⟩ zeroOrigin hiddenRegion }
  let r := activateLoop K e._hiddenSize e._chunkSize e._numSamples e._visibleLayers
    e._visibleLayerDescs visibleStates sum0
  let activationsFront :=
    e._hiddenActivations.front.withPixels
      (K.sfcActivate r.2.back e._hiddenStates.back e._hiddenActivations.front e._hiddenSize)
  let chunksInX := chunksIn e._hiddenSize.x e._chunkSize.x
  let chunksInY := chunksIn e._hiddenSize.y e._chunkSize.y
  let inh := sfcInhibit activationsFront e._hiddenStates.front e._chunkWinners.front
    e._hiddenSize e._chunkSize ⟨chunksInX, chunksInY⟩
  { e with
    _visibleLayers := r.1
    _hiddenSummationTemp := r.2
    _hiddenActivations := { e._hiddenActivations with front := activationsFront }
    _hiddenStates := { e._hiddenStates with front := inh.1 }
    _chunkWinners := { e._chunkWinners with front := inh.2 } }

/-- The method `SparseFeaturesChunk::stepEnd`. -/
def SparseFeaturesChunk.stepEnd (e : SparseFeaturesChunk) : SparseFeaturesChunk :=
  { e with
    _hiddenStates := e._hiddenStates.swap
    _hiddenActivations := e._hiddenActivations.swap
    _chunkWinners := e._chunkWinners.swap
    _visibleLayers := e._visibleLayers.map fun vl =>
      { vl with _derivedInput := vl._derivedInput.swap, _samples := vl._samples.swap } }

/-- The loop "Learn weights" of `learn` over the remaining layers: the weight update
kernel, then the swap of the layer's weight buffer. -/
def learnLoop (K : Kernels) (hiddenSize chunkSize : cl_int2) (numSamples : Nat)
    (chunkWinners : DoubleBuffer) :
    List VisibleLayer → List VisibleLayerDesc → List VisibleLayer
  | [], _ => []
  | vl :: vls, vlds =>
    let vld := vlds.headD default
    let weightsFront :=
      vl._weights.front.withPixels
        (K.sfcLearnWeights chunkWinners.front chunkWinners.back vl._samples.front
          vl._weights.back vl._weights.front hiddenSize vld._size vl._chunkToVisible chunkSize
          vld._radius vld._weightAlpha numSamples hiddenSize)
    { vl with _weights := DoubleBuffer.swap { vl._weights with front := weightsFront } }
      :: learnLoop K hiddenSize chunkSize numSamples chunkWinners vls vlds.tail

/-- The method `SparseFeaturesChunk::learn`. -/
def SparseFeaturesChunk.learn (e : SparseFeaturesChunk) (K : Kernels) : SparseFeaturesChunk :=
  { e with
    _visibleLayers :=
      learnLoop K e._hiddenSize e._chunkSize e._numSamples e._chunkWinners e._visibleLayers
        e._visibleLayerDescs }

/-- The method `SparseFeaturesChunk::inhibit`: returns the content of `states` after
the call. -/
def SparseFeaturesChunk.inhibit (e : SparseFeaturesChunk) (activations states : Image) : Image :=
  let chunksInX := chunksIn e._hiddenSize.x e._chunkSize.x
  let chunksInY := chunksIn e._hiddenSize.y e._chunkSize.y
  sfcInhibitOther activations states e._hiddenSize e._chunkSize ⟨chunksInX, chunksInY⟩

/-- The loop of `clearMemory` over the remaining layers. -/
def clearLoop (numSamples : Nat) : List VisibleLayer → List VisibleLayerDesc → List VisibleLayer
  | [], _ => []
  | vl :: vls, vlds =>
    let vld := vlds.headD default
    { vl with
      _derivedInput :=
        { vl._derivedInput with
          back := enqueueFillImage vl._derivedInput.back zeroColor zeroOrigin
            ⟨vld._size.x, vld._size.y, 1⟩ }
      _samples :=
        { vl._samples with
          back := enqueueFillImage vl._samples.back zeroColor zeroOrigin
            ⟨vld._size.x, vld._size.y, numSamples⟩ } }
      :: clearLoop numSamples vls vlds.tail

/-- The method `SparseFeaturesChunk::clearMemory`. -/
def SparseFeaturesChunk.clearMemory (e : SparseFeaturesChunk) : SparseFeaturesChunk :=
  let hiddenRegion : size3 := ⟨e._hiddenSize.x, e._hiddenSize.y, 1⟩
  { e with
    _hiddenStates :=
      { e._hiddenStates with
        back := enqueueFillImage e._hiddenStates.back zeroColor zeroOrigin hiddenRegion }
    _hiddenActivations :=
      { e._hiddenActivations with
        back := enqueueFillImage e._hiddenActivations.back zeroColor zeroOrigin hiddenRegion }
    _visibleLayers := clearLoop e._numSamples e._visibleLayers e._visibleLayerDescs }

/-! ## Persistence -/

/-- Tag of the encoder strategy held by a serialized record. -/
inductive SparseFeaturesType where
  | SparseFeaturesType_SparseFeaturesChunk
  | SparseFeaturesType_SparseFeaturesDistance
deriving DecidableEq, Repr

namespace schemas

/-- Serialized image: its extent and its cells. -/
structure Image where
  width : Nat
  height : Nat
  depth : Nat
  pixels : Nat → Nat → Nat → Texel

/-- Serialized double buffer. -/
structure DoubleBuffer where
  _front : Image
  _back : Image

/-- Serialized layer description (`schemas::VisibleChunkLayerDesc`). -/
structure VisibleChunkLayerDesc where
  _size : cl_int2
  _radius : Nat
  _ignoreMiddle : Bool
  _weightAlpha : ℚ
  _lambda : ℚ
deriving DecidableEq

/-- Serialized layer state (`schemas::VisibleChunkLayer`), the six fields that
`CreateVisibleChunkLayer` receives. -/
structure VisibleChunkLayer where
  _derivedInput : DoubleBuffer
  _samples : DoubleBuffer
  _weights : DoubleBuffer
  _hiddenToVisible : cl_float2
  _visibleToHidden : cl_float2
  _reverseRadii : cl_int2

/-- Serialized encoder (`schemas::SparseFeaturesChunk`), the nine fields that
`CreateSparseFeaturesChunk` receives. -/
structure SparseFeaturesChunk where
  _hiddenStates : DoubleBuffer
  _hiddenActivations : DoubleBuffer
  _chunkWinners : DoubleBuffer
  _hiddenSize : cl_int2
  _chunkSize : cl_int2
  _numSamples : Nat
  _hiddenSummationTemp : DoubleBuffer
  _visibleLayerDescs : List VisibleChunkLayerDesc
  _visibleLayers : List VisibleChunkLayer

/-- Serialized record handed to `load` (`schemas::SparseFeatures`): a type tag and
the payload. -/
structure SparseFeatures where
  _sf_type : SparseFeaturesType
  _sf : SparseFeaturesChunk

end schemas

/-- Modelled from the spec: `ogmaneo::save` for an image is not among the sources.
The record holds the extent of the image and the content of every cell
(section 4.7: every runtime tensor's contents). -/
def saveImage (img : Image) : schemas.Image :=
  ⟨img.width, img.height, img.depth, img.pix⟩

/-- Modelled from the spec: `ogmaneo::save` for a double buffer is not among the
sources. Both instances are recorded. -/
def saveDoubleBuffer (db : DoubleBuffer) : schemas.DoubleBuffer :=
  ⟨saveImage db.front, saveImage db.back⟩

/-- Whether a serialized image has the extent of a live image. -/
def sameShape (img : Image) (fb : schemas.Image) : Bool :=
  decide (img.width = fb.width ∧ img.height = fb.height ∧ img.depth = fb.depth)

/-- Modelled from the spec: `ogmaneo::load` for a double buffer is not among the
sources. Section 3: tensor shapes recorded at construction must match the shapes
found when restoring (checked, fatal on mismatch); section 4.7: the contents are
restored. `none` is the failed check. -/
def loadDoubleBuffer (db : DoubleBuffer) (fb : schemas.DoubleBuffer) : Option DoubleBuffer :=
  if sameShape db.front fb._front && sameShape db.back fb._back then
    some
      { front := { db.front with pix := fb._front.pixels }
        back := { db.back with pix := fb._back.pixels } }
  else none

/-- The method `VisibleLayerDesc::load`. -/
def VisibleLayerDesc.load (_vld : VisibleLayerDesc) (fb : schemas.VisibleChunkLayerDesc) :
    VisibleLayerDesc :=
  { _size := ⟨fb._size.x, fb._size.y⟩
    _radius := fb._radius
    _ignoreMiddle := fb._ignoreMiddle
    _weightAlpha := fb._weightAlpha
    _lambda := fb._lambda }

/-- The method `VisibleLayerDesc::save`. -/
def VisibleLayerDesc.save (vld : VisibleLayerDesc) : schemas.VisibleChunkLayerDesc :=
  { _size := ⟨vld._size.x, vld._size.y⟩
    _radius := vld._radius
    _ignoreMiddle := vld._ignoreMiddle
    _weightAlpha := vld._weightAlpha
    _lambda := vld._lambda }

/-- The method `VisibleLayer::load`; `none` when a tensor fails its shape check. -/
def VisibleLayer.load (vl : VisibleLayer) (fb : schemas.VisibleChunkLayer) :
    Option VisibleLayer :=
  match loadDoubleBuffer vl._derivedInput fb._derivedInput with
  | none => none
  | some derivedInput =>
    match loadDoubleBuffer vl._samples fb._samples with
    | none => none
    | some samples =>
      match loadDoubleBuffer vl._weights fb._weights with
      | none => none
      | some weights =>
        some
          { vl with
            _derivedInput := derivedInput
            _samples := samples
            _weights := weights
            _hiddenToVisible := ⟨fb._hiddenToVisible.x, fb._hiddenToVisible.y⟩
            _visibleToHidden := ⟨fb._visibleToHidden.x, fb._visibleToHidden.y⟩
            _reverseRadii := ⟨fb._reverseRadii.x, fb._reverseRadii.y⟩ }

/-- The method `VisibleLayer::save`. -/
def VisibleLayer.save (vl : VisibleLayer) : schemas.VisibleChunkLayer :=
  { _derivedInput := saveDoubleBuffer vl._derivedInput
    _samples := saveDoubleBuffer vl._samples
    _weights := saveDoubleBuffer vl._weights
    _hiddenToVisible := ⟨vl._hiddenToVisible.x, vl._hiddenToVisible.y⟩
    _visibleToHidden := ⟨vl._visibleToHidden.x, vl._visibleToHidden.y⟩
    _reverseRadii := ⟨vl._reverseRadii.x, vl._reverseRadii.y⟩ }

/-- The first loop of `load`: `_visibleLayerDescs[i].load(...)` for every recorded
description (the two lengths are equal when the loop is reached). -/
def loadDescs : List VisibleLayerDesc → List schemas.VisibleChunkLayerDesc
    → List VisibleLayerDesc
  | vld :: vlds, fb :: fbs => vld.load fb :: loadDescs vlds fbs
  | vlds, _ => vlds

/-- The second loop of `load`: `_visibleLayers[i].load(...)` for every recorded layer;
`none` when some layer fails a shape check. -/
def loadLayers : List VisibleLayer → List schemas.VisibleChunkLayer → Option (List VisibleLayer)
  | vl :: vls, fb :: fbs =>
    match vl.load fb with
    | none => none
    | some vl1 =>
      match loadLayers vls fbs with
      | none => none
      | some rest => some (vl1 :: rest)
  | vls, _ => some vls

/-- The method `SparseFeaturesChunk::save`. The encoder is returned next to the
record: it is the state after the call. -/
def SparseFeaturesChunk.save (e : SparseFeaturesChunk) :
    schemas.SparseFeatures × SparseFeaturesChunk :=
  let visibleLayerDescs := e._visibleLayerDescs.map VisibleLayerDesc.save
  let visibleLayers := e._visibleLayers.map VisibleLayer.save
  let sf : schemas.SparseFeaturesChunk :=
    { _hiddenStates := saveDoubleBuffer e._hiddenStates
      _hiddenActivations := saveDoubleBuffer e._hiddenActivations
      _chunkWinners := saveDoubleBuffer e._chunkWinners
      _hiddenSize := ⟨e._hiddenSize.x, e._hiddenSize.y⟩
      _chunkSize := ⟨e._chunkSize.x, e._chunkSize.y⟩
      _numSamples := e._numSamples
      _hiddenSummationTemp := saveDoubleBuffer e._hiddenSummationTemp
      _visibleLayerDescs := visibleLayerDescs
      _visibleLayers := visibleLayers }
  (⟨.SparseFeaturesType_SparseFeaturesChunk, sf⟩, e)

/-- The method `SparseFeaturesChunk::load`. `Except.error` is a failed assertion and
carries the encoder as it stood at the last completed statement. -/
def SparseFeaturesChunk.load (e : SparseFeaturesChunk) (fbSparseFeatures : schemas.SparseFeatures) :
    Except SparseFeaturesChunk SparseFeaturesChunk :=
  if fbSparseFeatures._sf_type ≠ .SparseFeaturesType_SparseFeaturesChunk then .error e else
  let fb := fbSparseFeatures._sf
  if e._hiddenSize.x ≠ fb._hiddenSize.x then .error e else
  if e._hiddenSize.y ≠ fb._hiddenSize.y then .error e else
  if e._visibleLayerDescs.length ≠ fb._visibleLayerDescs.length then .error e else
  if e._visibleLayers.length ≠ fb._visibleLayers.length then .error e else
  let e1 : SparseFeaturesChunk :=
    { e with
      _hiddenSize := ⟨fb._hiddenSize.x, fb._hiddenSize.y⟩
      _chunkSize := ⟨fb._chunkSize.x, fb._chunkSize.y⟩
      _numSamples := fb._numSamples }
  match loadDoubleBuffer e1._hiddenStates fb._hiddenStates with
  | none => .error e1
  | some hiddenStates =>
    let e2 := { e1 with _hiddenStates := hiddenStates }
    match loadDoubleBuffer e2._hiddenActivations fb._hiddenActivations with
    | none => .error e2
    | some hiddenActivations =>
      let e3 := { e2 with _hiddenActivations := hiddenActivations }
      match loadDoubleBuffer e3._chunkWinners fb._chunkWinners with
      | none => .error e3
      | some chunkWinners =>
        let e4 := { e3 with _chunkWinners := chunkWinners }
        match loadDoubleBuffer e4._hiddenSummationTemp fb._hiddenSummationTemp with
        | none => .error e4
        | some hiddenSummationTemp =>
          let e5 := { e4 with _hiddenSummationTemp := hiddenSummationTemp }
          let e6 :=
            { e5 with _visibleLayerDescs := loadDescs e5._visibleLayerDescs fb._visibleLayerDescs }
          match loadLayers e6._visibleLayers fb._visibleLayers with
          | none => .error e6
          | some visibleLayers => .ok { e6 with _visibleLayers := visibleLayers }

/-- The encoder description (`SparseFeaturesChunk::SparseFeaturesChunkDesc`). -/
structure SparseFeaturesChunkDesc where
  _hiddenSize : cl_int2
  _chunkSize : cl_int2
  _numSamples : Nat
  _initWeightRange : cl_float2
  _visibleLayerDescs : List VisibleLayerDesc
deriving DecidableEq

/-- Serialized encoder description (`schemas::SparseFeaturesChunkDesc`), the five
fields that `CreateSparseFeaturesChunkDesc` receives. -/
structure schemas.SparseFeaturesChunkDesc where
  _hiddenSize : cl_int2
  _chunkSize : cl_int2
  _numSamples : Nat
  _initWeightRange : cl_float2
  _visibleLayerDescs : List schemas.VisibleChunkLayerDesc
deriving DecidableEq

/-- The method `SparseFeaturesChunkDesc::save`. -/
def SparseFeaturesChunkDesc.save (d : SparseFeaturesChunkDesc) : schemas.SparseFeaturesChunkDesc :=
  { _hiddenSize := ⟨d._hiddenSize.x, d._hiddenSize.y⟩
    _chunkSize := ⟨d._chunkSize.x, d._chunkSize.y⟩
    _numSamples := d._numSamples
    _initWeightRange := ⟨d._initWeightRange.x, d._initWeightRange.y⟩
    _visibleLayerDescs := d._visibleLayerDescs.map VisibleLayerDesc.save }

/-- The method `SparseFeaturesChunkDesc::load`. `Except.error` is a failed assertion and
carries the description as it stood at that point. -/
def SparseFeaturesChunkDesc.load (d : SparseFeaturesChunkDesc)
    (fb : schemas.SparseFeaturesChunkDesc) :
    Except SparseFeaturesChunkDesc SparseFeaturesChunkDesc :=
  if d._hiddenSize.x ≠ fb._hiddenSize.x then .error d else
  if d._hiddenSize.y ≠ fb._hiddenSize.y then .error d else
  if d._visibleLayerDescs.length ≠ fb._visibleLayerDescs.length then .error d else
  .ok
    { d with
      _hiddenSize := ⟨fb._hiddenSize.x, fb._hiddenSize.y⟩
      _chunkSize := ⟨fb._chunkSize.x, fb._chunkSize.y⟩
      _initWeightRange := ⟨fb._initWeightRange.x, fb._initWeightRange.y⟩
      _visibleLayerDescs := loadDescs d._visibleLayerDescs fb._visibleLayerDescs }

/-! ## Predicates used by the properties -/

/-- Offset `d` names a unit of chunk `c`: it lies inside the chunk extent and its
hidden position lies inside the hidden grid. -/
def InChunk (hiddenSize chunkSize c d : cl_int2) : Prop :=
  d.x < chunkSize.x ∧ d.y < chunkSize.y
    ∧ (hiddenPosition chunkSize c d).x < hiddenSize.x
    ∧ (hiddenPosition chunkSize c d).y < hiddenSize.y

/-- State of the hidden unit at offset `d` of chunk `c`. -/
def stateAt (states : Image) (chunkSize c d : cl_int2) : ℚ :=
  (states.pix (hiddenPosition chunkSize c d).x (hiddenPosition chunkSize c d).y 0).r

/-- Every chunk of the ceiling-division chunk grid has exactly one unit of state `1`, its other units
have state `0`, the winner's activation is maximal in the chunk, and the winner is
the first unit of maximal activation in row-major offset order. -/
def OneWinnerPerChunk (hiddenSize chunkSize : cl_int2) (activations states : Image) : Prop :=
  ∀ c : cl_int2,
    c.x < chunksExact hiddenSize.x chunkSize.x → c.y < chunksExact hiddenSize.y chunkSize.y →
    ∃ w : cl_int2, InChunk hiddenSize chunkSize c w
      ∧ stateAt states chunkSize c w = 1
      ∧ (∀ d, InChunk hiddenSize chunkSize c d → d ≠ w → stateAt states chunkSize c d = 0)
      ∧ (∀ d, InChunk hiddenSize chunkSize c d →
          activationAt activations chunkSize c d ≤ activationAt activations chunkSize c w)
      ∧ (∀ d, InChunk hiddenSize chunkSize c d →
          activationAt activations chunkSize c d = activationAt activations chunkSize c w →
          rowMajor chunkSize w ≤ rowMajor chunkSize d)

/-- Colour that the inhibit kernels write at hidden position `q`. -/
def stateColor (activations : Image) (hiddenSize chunkSize q : cl_int2) : cl_float4 :=
  if (⟨q.x % chunkSize.x, q.y % chunkSize.y⟩ : cl_int2)
      = chunkWinner activations hiddenSize chunkSize ⟨q.x / chunkSize.x, q.y / chunkSize.y⟩ then
    ⟨1, 0, 0, 0⟩
  else ⟨0, 0, 0, 0⟩

/-- Hidden positions written by the work item of chunk `c`. -/
def chunkPositions (hiddenSize chunkSize c : cl_int2) : List cl_int2 :=
  (chunkUnits hiddenSize chunkSize c).map (hiddenPosition chunkSize c)

/-- An image has the given extent. -/
def Image.hasShape (img : Image) (s : size3) : Prop :=
  img.width = s.x ∧ img.height = s.y ∧ img.depth = s.z

/-- Both instances of a double buffer have the given extent. -/
def DoubleBuffer.hasShape (db : DoubleBuffer) (s : size3) : Prop :=
  db.front.hasShape s ∧ db.back.hasShape s

/-- Extent of a layer's weight tensor, as the constructor computes it. -/
def weightsSize (hiddenSize : cl_int2) (numSamples : Nat) (vld : VisibleLayerDesc) : size3 :=
  ⟨hiddenSize.x, hiddenSize.y,
    (wrapInt (wrapInt (wrapInt ((vld._radius : Int) * 2 + 1) * wrapInt ((vld._radius : Int) * 2 + 1))
      * (numSamples : Int))).toNat⟩

/-- The tensors of a layer have the extents the constructor gives them. -/
def LayerShaped (hiddenSize : cl_int2) (numSamples : Nat) (vl : VisibleLayer)
    (vld : VisibleLayerDesc) : Prop :=
  vl._derivedInput.hasShape ⟨vld._size.x, vld._size.y, 1⟩
    ∧ vl._samples.hasShape ⟨vld._size.x, vld._size.y, numSamples⟩
    ∧ vl._weights.hasShape (weightsSize hiddenSize numSamples vld)

/-- The data-model invariant on shapes: every tensor of the encoder has the extent
the constructor gives it for the encoder's configuration, and there is one layer
per layer description. -/
def WellShaped (e : SparseFeaturesChunk) : Prop :=
  e._hiddenStates.hasShape (region2 e._hiddenSize)
    ∧ e._hiddenActivations.hasShape (region2 e._hiddenSize)
    ∧ e._chunkWinners.hasShape
        (region2 ⟨chunksIn e._hiddenSize.x e._chunkSize.x, chunksIn e._hiddenSize.y e._chunkSize.y⟩)
    ∧ e._hiddenSummationTemp.hasShape (region2 e._hiddenSize)
    ∧ List.Forall₂ (LayerShaped e._hiddenSize e._numSamples) e._visibleLayers e._visibleLayerDescs

/-- Every cell of the image is zero. -/
def AllZero (img : Image) : Prop :=
  ∀ x y z, x < img.width → y < img.height → z < img.depth → img.pix x y z = ⟨0, 0⟩

/-- Two double buffers hold the same content, instance by instance. -/
def DoubleBuffer.sameContent (a b : DoubleBuffer) : Prop :=
  a.front.pix = b.front.pix ∧ a.back.pix = b.back.pix

/-- Kernels of a small test program: derive passes the input on, add-sample passes
the derived input on, stimulus adds the first sample to the running total, activate
passes the total on, and learning keeps the weights. -/
def demoKernels : Kernels where
  sfcDeriveInputs := fun inputs _ _ _ _ => inputs.pix
  sfcAddSample := fun derivedFront _ _ _ _ => derivedFront.pix
  sfcStimulus := fun samplesFront sumBack _ _ _ _ _ _ _ _ _ =>
    fun x y z => ⟨(sumBack.pix x y z).r + (samplesFront.pix x y 0).r, 0⟩
  sfcActivate := fun sumBack _ _ _ => sumBack.pix
  sfcLearnWeights := fun _ _ _ weightsBack _ _ _ _ _ _ _ _ _ => weightsBack.pix

/-- The configuration of section 8 of the specification: one input of size 4x4,
hidden size 4x4, chunk size 2x2, radius 1, one sample. -/
def demoEncoder : SparseFeaturesChunk :=
  SparseFeaturesChunk.construct (fun _ _ _ _ => ⟨5, 5⟩) (fun _ _ _ _ => 0)
    [⟨⟨4, 4⟩, 1, false, 0, 0⟩] ⟨4, 4⟩ ⟨2, 2⟩ 1

/-- A 4x4 input image whose cell `(x, y)` holds `x + 4 * y`. -/
def demoInput : Image := ⟨4, 4, 1, .CL_R, fun x y _ => ⟨(x : ℚ) + 4 * (y : ℚ), 0⟩⟩

/-- A double buffer passes the shape check of its recorded counterpart. -/
def DoubleBuffer.Fits (db : DoubleBuffer) (fb : schemas.DoubleBuffer) : Prop :=
  sameShape db.front fb._front = true ∧ sameShape db.back fb._back = true

/-- The three tensors of a layer pass the shape checks of the recorded layer. -/
def VisibleLayer.Fits (vl : VisibleLayer) (fb : schemas.VisibleChunkLayer) : Prop :=
  vl._derivedInput.Fits fb._derivedInput ∧ vl._samples.Fits fb._samples
    ∧ vl._weights.Fits fb._weights

/-- The encoder passes every assertion of `load` against the record: the type tag,
the hidden size, the two counts, and the shape check of every tensor. -/
def SparseFeaturesChunk.Fits (e : SparseFeaturesChunk) (fb : schemas.SparseFeatures) : Prop :=
  fb._sf_type = .SparseFeaturesType_SparseFeaturesChunk
    ∧ e._hiddenSize.x = fb._sf._hiddenSize.x
    ∧ e._hiddenSize.y = fb._sf._hiddenSize.y
    ∧ e._visibleLayerDescs.length = fb._sf._visibleLayerDescs.length
    ∧ e._hiddenStates.Fits fb._sf._hiddenStates
    ∧ e._hiddenActivations.Fits fb._sf._hiddenActivations
    ∧ e._chunkWinners.Fits fb._sf._chunkWinners
    ∧ e._hiddenSummationTemp.Fits fb._sf._hiddenSummationTemp
    ∧ List.Forall₂ VisibleLayer.Fits e._visibleLayers fb._sf._visibleLayers

/-- Double buffer after a successful `loadDoubleBuffer`. -/
def DoubleBuffer.loaded (db : DoubleBuffer) (fb : schemas.DoubleBuffer) : DoubleBuffer :=
  { front := { db.front with pix := fb._front.pixels }
    back := { db.back with pix := fb._back.pixels } }

/-- Layer after a successful `VisibleLayer.load`. -/
def VisibleLayer.loaded (vl : VisibleLayer) (fb : schemas.VisibleChunkLayer) : VisibleLayer :=
  { vl with
    _derivedInput := vl._derivedInput.loaded fb._derivedInput
    _samples := vl._samples.loaded fb._samples
    _weights := vl._weights.loaded fb._weights
    _hiddenToVisible := ⟨fb._hiddenToVisible.x, fb._hiddenToVisible.y⟩
    _visibleToHidden := ⟨fb._visibleToHidden.x, fb._visibleToHidden.y⟩
    _reverseRadii := ⟨fb._reverseRadii.x, fb._reverseRadii.y⟩ }

/-- Encoder after a successful `load`. -/
def SparseFeaturesChunk.loaded (e : SparseFeaturesChunk) (fb : schemas.SparseFeatures) :
    SparseFeaturesChunk :=
  { _visibleLayerDescs := loadDescs e._visibleLayerDescs fb._sf._visibleLayerDescs
    _hiddenSize := ⟨fb._sf._hiddenSize.x, fb._sf._hiddenSize.y⟩
    _chunkSize := ⟨fb._sf._chunkSize.x, fb._sf._chunkSize.y⟩
    _numSamples := fb._sf._numSamples
    _visibleLayers := List.zipWith VisibleLayer.loaded e._visibleLayers fb._sf._visibleLayers
    _hiddenStates := e._hiddenStates.loaded fb._sf._hiddenStates
    _hiddenActivations := e._hiddenActivations.loaded fb._sf._hiddenActivations
    _chunkWinners := e._chunkWinners.loaded fb._sf._chunkWinners
    _hiddenSummationTemp := e._hiddenSummationTemp.loaded fb._sf._hiddenSummationTemp }

/-- The record saved by `demoEncoder`. -/
def demoRecord : schemas.SparseFeatures := demoEncoder.save.1

/-- The record saved by `demoEncoder`, with the recorded hidden size changed to 8x4. -/
def demoRecordHidden : schemas.SparseFeatures :=
  { demoRecord with _sf := { demoRecord._sf with _hiddenSize := ⟨8, 4⟩ } }

/-- The record saved by `demoEncoder`, with the recorded size of its layer changed
from 4x4 to 8x8 (the recorded tensors keep their extents). -/
def demoRecordLayerSize : schemas.SparseFeatures :=
  { demoRecord with
    _sf := { demoRecord._sf with _visibleLayerDescs := [⟨⟨8, 8⟩, 1, false, 0, 0⟩] } }

/-- The encoder of section 8 of the specification after one `activate` on `demoInput`
followed by `stepEnd`: its back instances hold the results of that step. -/
def demoStepped : SparseFeaturesChunk := (demoEncoder.activate demoKernels [demoInput]).stepEnd

/-- The description of the encoder of section 8 of the specification. -/
def demoDesc : SparseFeaturesChunkDesc :=
  ⟨⟨4, 4⟩, ⟨2, 2⟩, 1, ⟨0, 1⟩, [⟨⟨4, 4⟩, 1, false, 0, 0⟩]⟩

/-- The record saved by `demoDesc`, with the recorded hidden size changed to 4x8. -/
def demoDescRecordHidden : schemas.SparseFeaturesChunkDesc :=
  { demoDesc.save with _hiddenSize := ⟨4, 8⟩ }

/-- Encoder states that the program can produce: a constructed encoder, and any
encoder obtained from one by `activate`, `learn`, `stepEnd`, `clearMemory`, or by a
successful `load` of a record saved by such an encoder. -/
inductive Reachable : SparseFeaturesChunk → Prop where
  | construct (mem : Nat → Nat → Nat → Nat → Texel) (rnd : Nat → Nat → Nat → Nat → ℚ)
      (vlds : List VisibleLayerDesc) (hiddenSize chunkSize : cl_int2) (numSamples : Nat) :
      Reachable (SparseFeaturesChunk.construct mem rnd vlds hiddenSize chunkSize numSamples)
  | activate (e : SparseFeaturesChunk) (K : Kernels) (visibleStates : List Image) :
      Reachable e → Reachable (e.activate K visibleStates)
  | learn (e : SparseFeaturesChunk) (K : Kernels) : Reachable e → Reachable (e.learn K)
  | stepEnd (e : SparseFeaturesChunk) : Reachable e → Reachable e.stepEnd
  | clearMemory (e : SparseFeaturesChunk) : Reachable e → Reachable e.clearMemory
  | load (e A e1 : SparseFeaturesChunk) :
      Reachable e → Reachable A → e.load A.save.1 = .ok e1 → Reachable e1

/-! ## The summation buffer of `activate`, image by image -/

/-- The summation buffer `_hiddenSummationTemp` with its two device images named:
`front` and `back` are the handles held in the slots `_front` and `_back`, and
`mem` gives the content of the device image behind a handle. `std::swap` exchanges
the handles, a kernel or a fill changes the content behind one handle. -/
structure Accumulator where
  front : Nat
  back : Nat
  mem : Nat → Image

/-- The double buffer of values that an accumulator stands for. -/
def Accumulator.toDoubleBuffer (a : Accumulator) : DoubleBuffer :=
  { front := a.mem a.front, back := a.mem a.back }

/-- The first statement of `activate`: `enqueueFillImage` on `_hiddenSummationTemp[_back]`. -/
def Accumulator.fillBack (a : Accumulator) (hiddenSize : cl_int2) : Accumulator :=
  { a with
    mem := Function.update a.mem a.back
      (enqueueFillImage (a.mem a.back) ⟨0, 0, 0, 0⟩ zeroOrigin ⟨hiddenSize.x, hiddenSize.y, 1⟩) }

/-- One dispatch of the stimulus kernel: the images set as its arguments. `reads` and
`writes` are the handles set as the second and third argument
(`_hiddenSummationTemp[_back]` and `_hiddenSummationTemp[_front]` at that time),
`total` is the content read through `reads` and `output` the content that the
dispatch leaves behind `writes`. -/
structure StimulusStage where
  samplesFront : Image
  reads : Nat
  writes : Nat
  total : Image
  output : Image
  weightsBack : Image
  vld : VisibleLayerDesc
  chunkToVisible : cl_float2

/-- The loop "Find up stimulus" of `activate` as `activateLoop` runs it, followed on
the named images of the summation buffer: per layer the stimulus kernel reads the
image in slot `_back`, writes the image in slot `_front`, and the two handles are
swapped. Returns the stimulus dispatches in order and the summation buffer after
the loop. -/
def stimulusLoop (K : Kernels) (hiddenSize chunkSize : cl_int2) (numSamples : Nat) :
    List VisibleLayer → List VisibleLayerDesc → List Image → Accumulator
      → List StimulusStage × Accumulator
  | [], _, _, a => ([], a)
  | vl :: vls, vlds, visibleStates, a =>
    let vld := vlds.headD default
    let derivedFront :=
      vl._derivedInput.front.withPixels
        (K.sfcDeriveInputs (visibleStates.headD default) vl._derivedInput.back
          vl._derivedInput.front vld._lambda vld._size)
    let samplesFront :=
      vl._samples.front.withPixels
        (K.sfcAddSample derivedFront vl._samples.back vl._samples.front numSamples vld._size)
    let output :=
      (a.mem a.front).withPixels
        (K.sfcStimulus samplesFront (a.mem a.back) (a.mem a.front) vl._weights.back vld._size
          vl._chunkToVisible chunkSize vld._radius numSamples vld._ignoreMiddle hiddenSize)
    let stage : StimulusStage :=
      { samplesFront := samplesFront
        reads := a.back
        writes := a.front
        total := a.mem a.back
        output := output
        weightsBack := vl._weights.back
        vld := vld
        chunkToVisible := vl._chunkToVisible }
    let a1 : Accumulator :=
      { front := a.back, back := a.front, mem := Function.update a.mem a.front output }
    let r := stimulusLoop K hiddenSize chunkSize numSamples vls vlds.tail visibleStates.tail a1
    (stage :: r.1, r.2)

/-- The statements of `activate` up to the activate stage, followed on the named
images of the summation buffer: the zero fill of the image in slot `_back`, then
the stimulus loop. -/
def SparseFeaturesChunk.accumulate (e : SparseFeaturesChunk) (K : Kernels)
    (visibleStates : List Image) (a : Accumulator) : List StimulusStage × Accumulator :=
  stimulusLoop K e._hiddenSize e._chunkSize e._numSamples e._visibleLayers
    e._visibleLayerDescs visibleStates (a.fillBack e._hiddenSize)

/-- The stimulus kernel adds a contribution to the running total it reads: the red
channel of every cell it writes is the red channel of the total plus `contrib`,
which depends on the layer's samples, weights and geometry only. -/
def Kernels.Additive (K : Kernels)
    (contrib : Image → Image → cl_int2 → cl_float2 → cl_int2 → Nat → Nat → Bool → cl_int2
      → Nat → Nat → Nat → ℚ) : Prop :=
  ∀ (samplesFront sumBack sumFront weightsBack : Image) (visibleSize : cl_int2)
    (chunkToVisible : cl_float2) (chunkSize : cl_int2) (radius numSamples : Nat)
    (ignoreMiddle : Bool) (range : cl_int2) (x y z : Nat),
    (K.sfcStimulus samplesFront sumBack sumFront weightsBack visibleSize chunkToVisible chunkSize
        radius numSamples ignoreMiddle range x y z).r
      = (sumBack.pix x y z).r
        + contrib samplesFront weightsBack visibleSize chunkToVisible chunkSize radius numSamples
            ignoreMiddle range x y z

/-- The contribution of one stimulus dispatch at a cell, for a kernel that is additive
with `contrib`. -/
def StimulusStage.contribution
    (contrib : Image → Image → cl_int2 → cl_float2 → cl_int2 → Nat → Nat → Bool → cl_int2
      → Nat → Nat → Nat → ℚ)
    (hiddenSize chunkSize : cl_int2) (numSamples : Nat) (s : StimulusStage) (x y z : Nat) : ℚ :=
  contrib s.samplesFront s.weightsBack s.vld._size s.chunkToVisible chunkSize s.vld._radius
    numSamples s.vld._ignoreMiddle hiddenSize x y z

/-- The summation buffer of `demoEncoder` with its images named as the constructor
allocates them: allocation 6 is the summation buffer, its images are numbers 12
(front) and 13 (back). -/
def demoAccumulator : Accumulator :=
  { front := 12
    back := 13
    mem := fun k =>
      if k = 13 then demoEncoder._hiddenSummationTemp.back
      else demoEncoder._hiddenSummationTemp.front }

/-- The contribution that the stimulus kernel of `demoKernels` adds: the first sample
of the cell. -/
def demoContribution : Image → Image → cl_int2 → cl_float2 → cl_int2 → Nat → Nat → Bool
    → cl_int2 → Nat → Nat → Nat → ℚ :=
  fun samplesFront _ _ _ _ _ _ _ _ x y _ => (samplesFront.pix x y 0).r

/-- The map of section 3 of the specification from a hidden unit to its chunk and its
offset inside the chunk: `(x, y)` goes to chunk `(x / cw, y / ch)` and offset
`(x % cw, y % ch)`. Its inverse on chunk units is `hiddenPosition`. -/
def chunkAndOffset (chunkSize q : cl_int2) : cl_int2 × cl_int2 :=
  (⟨q.x / chunkSize.x, q.y / chunkSize.y⟩, ⟨q.x % chunkSize.x, q.y % chunkSize.y⟩)

/-- The chunk grid of an encoder: the extent of the chunk-winner images and the
range over which the two inhibit kernels are dispatched. -/
def SparseFeaturesChunk.chunkGrid (e : SparseFeaturesChunk) : cl_int2 :=
  ⟨chunksIn e._hiddenSize.x e._chunkSize.x, chunksIn e._hiddenSize.y e._chunkSize.y⟩

/-- An encoder without visible layers whose hidden size is 16777217 x 1 and whose
chunk size is 2 x 1. -/
def bigEncoder : SparseFeaturesChunk :=
  SparseFeaturesChunk.construct (fun _ _ _ _ => ⟨0, 0⟩) (fun _ _ _ _ => 0) []
    ⟨16777217, 1⟩ ⟨2, 1⟩ 1

/-- An image of extent 16777217 x 1 that holds 0 in every cell. -/
def bigImage : Image := ⟨16777217, 1, 1, .CL_R, fun _ _ _ => ⟨0, 0⟩⟩

/-! ## Properties -/

/-! ### The chunk grid and the scan -/

theorem mem_ndRange (n p : cl_int2) : p ∈ ndRange n ↔ p.x < n.x ∧ p.y < n.y := by
  unfold ndRange
  simp only [List.mem_map, List.mem_range]
  constructor
  · rintro ⟨i, hi, rfl⟩
    have hpos : 0 < n.x := by
      rcases Nat.eq_zero_or_pos n.x with h | h
      · rw [h] at hi; simp at hi
      · exact h
    refine ⟨Nat.mod_lt _ hpos, ?_⟩
    show i / n.x < n.y
    rw [Nat.div_lt_iff_lt_mul hpos, Nat.mul_comm]
    exact hi
  · rintro ⟨hx, hy⟩
    obtain ⟨px, py⟩ := p
    simp only at hx hy
    refine ⟨px + n.x * py, ?_, ?_⟩
    · calc px + n.x * py < n.x + n.x * py := by omega
        _ = n.x * (py + 1) := by ring
        _ ≤ n.x * n.y := Nat.mul_le_mul_left _ hy
    · have h1 : (px + n.x * py) % n.x = px := by
        rw [Nat.add_mul_mod_self_left, Nat.mod_eq_of_lt hx]
      have h2 : (px + n.x * py) / n.x = py := by
        rw [Nat.add_mul_div_left _ _ (by omega : 0 < n.x), Nat.div_eq_of_lt hx, Nat.zero_add]
      rw [h1, h2]

theorem ndRange_pairwise (n : cl_int2) :
    (ndRange n).Pairwise (fun a b => rowMajor n a < rowMajor n b) := by
  unfold ndRange
  rw [List.pairwise_map]
  have h : ∀ i : Nat, rowMajor n ⟨i % n.x, i / n.x⟩ = i := by
    intro i
    unfold rowMajor
    show i / n.x * n.x + i % n.x = i
    rw [Nat.mul_comm]
    exact Nat.div_add_mod i n.x
  simp only [h]
  exact List.pairwise_lt_range _

/-! ### Single-precision chunk counts -/

theorem log2Aux_spec (fuel n : Nat) (hn : 0 < n) (hf : n ≤ fuel) :
    2 ^ log2Aux fuel n ≤ n ∧ n < 2 ^ (log2Aux fuel n + 1) := by
  induction fuel generalizing n with
  | zero => omega
  | succ fuel ih =>
    unfold log2Aux
    by_cases h2 : n < 2
    · rw [if_pos h2]
      simp only [pow_zero, zero_add, pow_one]
      omega
    · rw [if_neg h2]
      obtain ⟨h1, h3⟩ := ih (n / 2) (by omega) (by omega)
      rw [pow_succ, pow_succ]
      rw [pow_succ] at h3
      constructor
      · have := Nat.mul_le_of_le_div 2 _ _ h1
        omega
      · omega

theorem floorLog2_spec (n : Nat) (hn : 0 < n) :
    2 ^ floorLog2 n ≤ n ∧ n < 2 ^ (floorLog2 n + 1) :=
  log2Aux_spec n n hn (le_refl n)

theorem floorLog2_le (n k : Nat) (hn : 0 < n) (h : n < 2 ^ (k + 1)) : floorLog2 n ≤ k := by
  have h1 := (floorLog2_spec n hn).1
  have h2 : 2 ^ floorLog2 n < 2 ^ (k + 1) := lt_of_le_of_lt h1 h
  have := (Nat.pow_lt_pow_iff_right (by decide : 1 < 2)).mp h2
  omega

theorem le_floorLog2 (n k : Nat) (h : 2 ^ k ≤ n) : k ≤ floorLog2 n := by
  have hn : 0 < n := lt_of_lt_of_le (Nat.two_pow_pos k) h
  have h2 : 2 ^ k < 2 ^ (floorLog2 n + 1) := lt_of_le_of_lt h (floorLog2_spec n hn).2
  have := (Nat.pow_lt_pow_iff_right (by decide : 1 < 2)).mp h2
  omega

theorem roundNearestEven_lower (n d : Nat) (hd : 0 < d) :
    2 * n ≤ roundNearestEven n d * (2 * d) + d := by
  have hdm := Nat.div_add_mod n d
  have hr := Nat.mod_lt n hd
  unfold roundNearestEven
  generalize n / d = q at hdm ⊢
  generalize n % d = r at hdm hr ⊢
  have hn : 2 * n = 2 * (d * q) + 2 * r := by omega
  have hq : q * (2 * d) = 2 * (d * q) := by ring
  have hq1 : (q + 1) * (2 * d) = 2 * (d * q) + 2 * d := by ring
  split_ifs <;> omega

theorem roundNearestEven_floor (n d : Nat) : n / d ≤ roundNearestEven n d := by
  unfold roundNearestEven
  split_ifs <;> omega

theorem roundNearestEven_upper (n d k : Nat) (hd : 0 < d) (h : n ≤ k * d) :
    roundNearestEven n d ≤ k := by
  have hdm := Nat.div_add_mod n d
  have hq : n / d ≤ k := Nat.div_le_of_le_mul (by rw [Nat.mul_comm]; exact h)
  by_cases hr : n % d = 0
  · unfold roundNearestEven
    rw [hr]
    simp only [Nat.mul_zero]
    rw [if_pos hd]
    exact hq
  · have hlt : n / d < k := by
      by_contra hge
      have hk : k ≤ n / d := by omega
      have : k * d ≤ n / d * d := Nat.mul_le_mul_right d hk
      have h2 : d * (n / d) = n / d * d := Nat.mul_comm _ _
      omega
    unfold roundNearestEven
    split_ifs <;> omega

theorem lt_chunksExact_iff (a b : Nat) (hb : 0 < b) (c : Nat) :
    c < chunksExact a b ↔ c * b < a := by
  unfold chunksExact
  rw [Nat.lt_iff_add_one_le, Nat.le_div_iff_mul_le hb, Nat.add_mul]
  omega

theorem chunksExact_mul_ge (a b : Nat) (hb : 0 < b) : a ≤ chunksExact a b * b := by
  have h := (lt_chunksExact_iff a b hb (chunksExact a b)).not.mp (lt_irrefl _)
  omega

theorem round_scaled_ceil (a b S : Nat) (hb : 0 < b) (hS : b < 2 ^ (S + 1)) :
    (roundNearestEven (a * 2 ^ S) b + 2 ^ S - 1) / 2 ^ S = chunksExact a b := by
  have hP : 0 < 2 ^ S := Nat.two_pow_pos S
  have hS2 : b < 2 * 2 ^ S := by rw [pow_succ] at hS; omega
  generalize 2 ^ S = P at hP hS2 ⊢
  have hup : roundNearestEven (a * P) b ≤ chunksExact a b * P := by
    apply roundNearestEven_upper _ _ _ hb
    calc a * P ≤ chunksExact a b * b * P := Nat.mul_le_mul_right P (chunksExact_mul_ge a b hb)
      _ = chunksExact a b * P * b := by ring
  have hlow := roundNearestEven_lower (a * P) b hb
  generalize roundNearestEven (a * P) b = m at hup hlow ⊢
  have hlo : chunksExact a b * P < m + P := by
    rcases Nat.eq_zero_or_pos (chunksExact a b) with h0 | hpos
    · rw [h0]; omega
    · obtain ⟨c, hc⟩ : ∃ c, chunksExact a b = c + 1 := ⟨chunksExact a b - 1, by omega⟩
      have hca : c * b < a := (lt_chunksExact_iff a b hb c).mp (by omega)
      rw [hc]
      have h1 : (c * b + 1) * P ≤ a * P := Nat.mul_le_mul_right P hca
      have h2 : 2 * ((c * b + 1) * P) < m * (2 * b) + 2 * P := by omega
      have h3 : b * (2 * (c * P)) < b * (2 * m) := by
        have e1 : b * (2 * (c * P)) + 2 * P = 2 * ((c * b + 1) * P) := by ring
        have e2 : b * (2 * m) = m * (2 * b) := by ring
        omega
      have h4 := Nat.lt_of_mul_lt_mul_left h3
      have e3 : (c + 1) * P = c * P + P := by ring
      omega
  apply Nat.div_eq_of_lt_le
  · omega
  · have e : (chunksExact a b + 1) * P = chunksExact a b * P + P := by ring
    omega

theorem ceil_mk_neg (m S : Nat) : (⟨m, -(S : Int)⟩ : float32).ceil = (m + 2 ^ S - 1) / 2 ^ S := by
  unfold float32.ceil
  by_cases h : S = 0
  · subst h
    simp
  · have hneg : ¬ (0 : Int) ≤ -(S : Int) := by omega
    simp only [hneg, if_false, neg_neg, Int.toNat_ofNat]

theorem ofQuotient_ceil (a b : Nat) (ha : a < 2 ^ 24) (hb : 0 < b) :
    (float32.ofQuotient a b).ceil = chunksExact a b := by
  by_cases ha0 : a = 0
  · subst ha0
    have : chunksExact 0 b = 0 := by
      unfold chunksExact
      exact Nat.div_eq_of_lt (by omega)
    rw [this]
    simp [float32.ofQuotient, float32.ceil]
  · have hLa : floorLog2 a ≤ 23 := floorLog2_le a 23 (Nat.pos_of_ne_zero ha0) ha
    have hb2 := (floorLog2_spec b hb).2
    have hcond : ¬ (a = 0 ∨ b = 0) := by omega
    unfold float32.ofQuotient
    rw [if_neg hcond]
    by_cases hδ : a * 2 ^ floorLog2 b < b * 2 ^ floorLog2 a
    · simp only [hδ, if_true]
      have hE : (floorLog2 a : Int) - (floorLog2 b : Int) - 1 ≤ 23 := by omega
      rw [if_pos hE]
      have e1 : (floorLog2 a : Int) - (floorLog2 b : Int) - 1 - 23
          = -((23 - floorLog2 a + floorLog2 b + 1 : Nat) : Int) := by omega
      have e2 : ((23 : Int) - ((floorLog2 a : Int) - (floorLog2 b : Int) - 1)).toNat
          = 23 - floorLog2 a + floorLog2 b + 1 := by omega
      rw [e1, e2, ceil_mk_neg]
      apply round_scaled_ceil _ _ _ hb
      exact lt_of_lt_of_le hb2 (Nat.pow_le_pow_right (by decide) (by omega))
    · simp only [hδ, if_false]
      have hE : (floorLog2 a : Int) - (floorLog2 b : Int) - 0 ≤ 23 := by omega
      rw [if_pos hE]
      have e1 : (floorLog2 a : Int) - (floorLog2 b : Int) - 0 - 23
          = -((23 - floorLog2 a + floorLog2 b : Nat) : Int) := by omega
      have e2 : ((23 : Int) - ((floorLog2 a : Int) - (floorLog2 b : Int) - 0)).toNat
          = 23 - floorLog2 a + floorLog2 b := by omega
      rw [e1, e2, ceil_mk_neg]
      apply round_scaled_ceil _ _ _ hb
      exact lt_of_lt_of_le hb2 (Nat.pow_le_pow_right (by decide) (by omega))

theorem chunksExact_one (a : Nat) : chunksExact a 1 = a := by
  unfold chunksExact
  simp

theorem intToFloat_of_lt (n : Nat) (h : n < 2 ^ 24) : intToFloat n = n := by
  unfold intToFloat
  rw [ofQuotient_ceil n 1 h Nat.one_pos, chunksExact_one]

theorem floorLog2_one : floorLog2 1 = 0 := by decide

theorem intToFloat_ge (n : Nat) (h : 2 ^ 24 ≤ n) : 2 ^ 24 ≤ intToFloat n := by
  have hn : 0 < n := lt_of_lt_of_le (Nat.two_pow_pos 24) h
  have hL : 24 ≤ floorLog2 n := le_floorLog2 n 24 h
  have hspec := (floorLog2_spec n hn).1
  have hcond : ¬ (n = 0 ∨ 1 = 0) := by omega
  have hδ : ¬ (n * 2 ^ 0 < 1 * 2 ^ floorLog2 n) := by
    omega
  unfold intToFloat float32.ofQuotient
  rw [if_neg hcond]
  simp only [floorLog2_one, hδ, if_false]
  have hE : ¬ ((floorLog2 n : Int) - ((0 : Nat) : Int) - 0 ≤ 23) := by omega
  rw [if_neg hE]
  have e1 : (floorLog2 n : Int) - ((0 : Nat) : Int) - 0 - 23 = ((floorLog2 n - 23 : Nat) : Int) := by
    omega
  rw [e1]
  unfold float32.ceil
  simp only [Int.natCast_nonneg, if_true, Int.toNat_ofNat, Nat.one_mul]
  have hfl := roundNearestEven_floor n (2 ^ (floorLog2 n - 23))
  have hq : 2 ^ 23 ≤ n / 2 ^ (floorLog2 n - 23) := by
    rw [Nat.le_div_iff_mul_le (Nat.two_pow_pos _), ← pow_add]
    have : 23 + (floorLog2 n - 23) = floorLog2 n := by omega
    rw [this]
    exact hspec
  calc 2 ^ 24 ≤ 2 ^ floorLog2 n := Nat.pow_le_pow_right (by decide) hL
    _ = 2 ^ 23 * 2 ^ (floorLog2 n - 23) := by
        rw [← pow_add]
        congr 1
        omega
    _ ≤ roundNearestEven n (2 ^ (floorLog2 n - 23)) * 2 ^ (floorLog2 n - 23) :=
        Nat.mul_le_mul_right _ (le_trans hq hfl)

theorem chunksExact_of_le (a b : Nat) (ha : 0 < a) (h : a ≤ b) : chunksExact a b = 1 := by
  unfold chunksExact
  apply Nat.div_eq_of_lt_le <;> omega

theorem chunksExact_zero (b : Nat) (hb : 0 < b) : chunksExact 0 b = 0 := by
  unfold chunksExact
  exact Nat.div_eq_of_lt (by omega)

theorem chunksIn_eq_chunksExact (hidden chunk : Nat) (hh : hidden < 2 ^ 24) (hc : 0 < chunk) :
    chunksIn hidden chunk = chunksExact hidden chunk := by
  unfold chunksIn
  rw [intToFloat_of_lt hidden hh]
  by_cases hlt : chunk < 2 ^ 24
  · rw [intToFloat_of_lt chunk hlt, ofQuotient_ceil hidden chunk hh hc]
  · have hge : 2 ^ 24 ≤ intToFloat chunk := intToFloat_ge chunk (by omega)
    rw [ofQuotient_ceil hidden _ hh (by omega)]
    rcases Nat.eq_zero_or_pos hidden with h0 | hpos
    · rw [h0, chunksExact_zero _ (by omega), chunksExact_zero _ hc]
    · rw [chunksExact_of_le _ _ hpos (by omega), chunksExact_of_le _ _ hpos (by omega)]

theorem lt_chunksIn_iff (hidden chunk c : Nat) (hb : hidden < 2 ^ 24) (h : 0 < chunk) :
    c < chunksIn hidden chunk ↔ c * chunk < hidden := by
  rw [chunksIn_eq_chunksExact hidden chunk hb h]
  exact lt_chunksExact_iff hidden chunk h c

theorem scanMax_spec (key : cl_int2 → ℚ) (l : List cl_int2) (b : cl_int2) :
    (∀ d ∈ b :: l, key d ≤ key (scanMax key b l)) ∧
      ∃ l1 l2, b :: l = l1 ++ scanMax key b l :: l2 ∧ ∀ d ∈ l1, key d < key (scanMax key b l) := by
  induction l generalizing b with
  | nil =>
    refine ⟨?_, [], [], rfl, ?_⟩
    · intro d hd
      simp only [List.mem_singleton] at hd
      subst hd
      exact le_refl _
    · intro d hd
      simp at hd
  | cons d l ih =>
    have hstep : scanMax key b (d :: l) = scanMax key (if key b < key d then d else b) l := rfl
    rw [hstep]
    by_cases hlt : key b < key d
    · rw [if_pos hlt]
      obtain ⟨hmax, l1, l2, hsplit, hfirst⟩ := ih d
      have hd : key d ≤ key (scanMax key d l) := hmax d (List.mem_cons_self _ _)
      refine ⟨?_, b :: l1, l2, ?_, ?_⟩
      · intro x hx
        rcases List.mem_cons.mp hx with rfl | hx
        · exact le_of_lt (lt_of_lt_of_le hlt hd)
        · exact hmax x hx
      · rw [hsplit]; rfl
      · intro x hx
        rcases List.mem_cons.mp hx with rfl | hx
        · exact lt_of_lt_of_le hlt hd
        · exact hfirst x hx
    · rw [if_neg hlt]
      have hdb : key d ≤ key b := not_lt.mp hlt
      obtain ⟨hmax, l1, l2, hsplit, hfirst⟩ := ih b
      have hb : key b ≤ key (scanMax key b l) := hmax b (List.mem_cons_self _ _)
      refine ⟨?_, ?_⟩
      · intro x hx
        rcases List.mem_cons.mp hx with rfl | hx
        · exact hb
        · rcases List.mem_cons.mp hx with rfl | hx
          · exact le_trans hdb hb
          · exact hmax x (List.mem_cons_of_mem _ hx)
      · cases l1 with
        | nil =>
          simp only [List.nil_append, List.cons.injEq] at hsplit
          refine ⟨[], d :: l, ?_, ?_⟩
          · rw [← hsplit.1]; rfl
          · intro x hx
            simp at hx
        | cons a l1 =>
          simp only [List.cons_append, List.cons.injEq] at hsplit
          obtain ⟨hab, hl⟩ := hsplit
          subst hab
          have hbr : key b < key (scanMax key b l) := hfirst b (List.mem_cons_self _ _)
          refine ⟨b :: d :: l1, l2, ?_, ?_⟩
          · exact congrArg (fun t => b :: d :: t) hl
          · intro x hx
            rcases List.mem_cons.mp hx with rfl | hx
            · exact hbr
            · rcases List.mem_cons.mp hx with rfl | hx
              · exact lt_of_le_of_lt hdb hbr
              · exact hfirst x (List.mem_cons_of_mem _ hx)

/-! ### Chunk inhibition -/

theorem mem_chunkUnits (hiddenSize chunkSize c d : cl_int2) :
    d ∈ chunkUnits hiddenSize chunkSize c ↔ InChunk hiddenSize chunkSize c d := by
  unfold chunkUnits InChunk
  rw [List.mem_filter, mem_ndRange, decide_eq_true_iff]
  tauto

theorem hiddenPosition_div_mod (chunkSize c d : cl_int2) (hx : d.x < chunkSize.x)
    (hy : d.y < chunkSize.y) :
    (⟨(hiddenPosition chunkSize c d).x % chunkSize.x,
        (hiddenPosition chunkSize c d).y % chunkSize.y⟩ : cl_int2) = d
      ∧ (⟨(hiddenPosition chunkSize c d).x / chunkSize.x,
        (hiddenPosition chunkSize c d).y / chunkSize.y⟩ : cl_int2) = c := by
  obtain ⟨dx, dy⟩ := d
  obtain ⟨cx, cy⟩ := c
  simp only [hiddenPosition] at *
  have h1 : (cx * chunkSize.x + dx) % chunkSize.x = dx := by
    rw [Nat.mul_comm, Nat.mul_add_mod, Nat.mod_eq_of_lt hx]
  have h2 : (cy * chunkSize.y + dy) % chunkSize.y = dy := by
    rw [Nat.mul_comm, Nat.mul_add_mod, Nat.mod_eq_of_lt hy]
  have h3 : (cx * chunkSize.x + dx) / chunkSize.x = cx := by
    rw [Nat.mul_comm, Nat.mul_add_div (by omega), Nat.div_eq_of_lt hx, Nat.add_zero]
  have h4 : (cy * chunkSize.y + dy) / chunkSize.y = cy := by
    rw [Nat.mul_comm, Nat.mul_add_div (by omega), Nat.div_eq_of_lt hy, Nat.add_zero]
  rw [h1, h2, h3, h4]
  exact ⟨rfl, rfl⟩

theorem stateColor_hiddenPosition (activations : Image) (hiddenSize chunkSize c d : cl_int2)
    (h : InChunk hiddenSize chunkSize c d) :
    stateColor activations hiddenSize chunkSize (hiddenPosition chunkSize c d)
      = if d = chunkWinner activations hiddenSize chunkSize c then ⟨1, 0, 0, 0⟩
        else ⟨0, 0, 0, 0⟩ := by
  obtain ⟨h1, h2⟩ := hiddenPosition_div_mod chunkSize c d h.1 h.2.1
  unfold stateColor
  rw [h1, h2]

theorem foldl_write_spec (V : cl_int2 → cl_float4) (l : List cl_int2) (st : Image) :
    (l.foldl (fun s q => s.write q (V q)) st).order = st.order
      ∧ ∀ x y z, (l.foldl (fun s q => s.write q (V q)) st).pix x y z
          = if z = 0 ∧ (⟨x, y⟩ : cl_int2) ∈ l then texelOf st.order (V ⟨x, y⟩)
            else st.pix x y z := by
  induction l generalizing st with
  | nil => simp
  | cons q l ih =>
    obtain ⟨ho, hp⟩ := ih (st.write q (V q))
    refine ⟨by rw [List.foldl_cons, ho]; rfl, ?_⟩
    intro x y z
    rw [List.foldl_cons, hp]
    by_cases hz : z = 0
    · by_cases hm : (⟨x, y⟩ : cl_int2) ∈ l
      · rw [if_pos ⟨hz, hm⟩, if_pos ⟨hz, List.mem_cons_of_mem _ hm⟩]; rfl
      · rw [if_neg (fun h => hm h.2)]
        by_cases hq : (⟨x, y⟩ : cl_int2) = q
        · rw [if_pos ⟨hz, by rw [hq]; exact List.mem_cons_self _ _⟩]
          subst hq
          simp [Image.write, hz]
        · have hne : ¬(x = q.x ∧ y = q.y ∧ z = 0) := by
            rintro ⟨rfl, rfl, _⟩
            exact hq rfl
          have hnm : ¬(z = 0 ∧ (⟨x, y⟩ : cl_int2) ∈ q :: l) := by
            rintro ⟨_, h⟩
            rcases List.mem_cons.mp h with h | h
            · exact hq h
            · exact hm h
          rw [if_neg hnm]
          simp only [Image.write, if_neg hne]
    · rw [if_neg (fun h => hz h.1), if_neg (fun h => hz h.1)]
      have hne : ¬(x = q.x ∧ y = q.y ∧ z = 0) := fun h => hz h.2.2
      simp only [Image.write, if_neg hne]

theorem inhibitChunk_eq (activations : Image) (hiddenSize chunkSize : cl_int2) (st : Image)
    (c : cl_int2) :
    inhibitChunk activations hiddenSize chunkSize st c
      = (chunkPositions hiddenSize chunkSize c).foldl
          (fun s q => s.write q (stateColor activations hiddenSize chunkSize q)) st := by
  unfold inhibitChunk chunkPositions
  rw [List.foldl_map]
  apply List.foldl_ext
  intro s d hd
  rw [stateColor_hiddenPosition activations hiddenSize chunkSize c d
    ((mem_chunkUnits hiddenSize chunkSize c d).mp hd)]

theorem sfcInhibitOther_eq (activations : Image) (hiddenSize chunkSize : cl_int2)
    (chunks : List cl_int2) (st : Image) :
    chunks.foldl (inhibitChunk activations hiddenSize chunkSize) st
      = (chunks.flatMap (chunkPositions hiddenSize chunkSize)).foldl
          (fun s q => s.write q (stateColor activations hiddenSize chunkSize q)) st := by
  induction chunks generalizing st with
  | nil => rfl
  | cons c chunks ih =>
    rw [List.foldl_cons, List.flatMap_cons, List.foldl_append, ih, inhibitChunk_eq]

theorem sfcInhibit_fst (activations : Image) (hiddenSize chunkSize range : cl_int2)
    (st win : Image) :
    (sfcInhibit activations st win hiddenSize chunkSize range).1
      = sfcInhibitOther activations st hiddenSize chunkSize range := by
  unfold sfcInhibit sfcInhibitOther
  generalize ndRange range = chunks
  induction chunks generalizing st win with
  | nil => rfl
  | cons c chunks ih =>
    rw [List.foldl_cons, List.foldl_cons, ih]

theorem sfcInhibitOther_stateAt (activations st : Image) (hiddenSize chunkSize range c d : cl_int2)
    (hc : c ∈ ndRange range) (hd : InChunk hiddenSize chunkSize c d) :
    stateAt (sfcInhibitOther activations st hiddenSize chunkSize range) chunkSize c d
      = if d = chunkWinner activations hiddenSize chunkSize c then 1 else 0 := by
  unfold stateAt sfcInhibitOther
  rw [sfcInhibitOther_eq]
  have hmem : (⟨(hiddenPosition chunkSize c d).x, (hiddenPosition chunkSize c d).y⟩ : cl_int2)
      ∈ (ndRange range).flatMap (chunkPositions hiddenSize chunkSize) :=
    List.mem_flatMap.mpr
      ⟨c, hc, List.mem_map_of_mem _ ((mem_chunkUnits hiddenSize chunkSize c d).mpr hd)⟩
  rw [(foldl_write_spec _ _ st).2, if_pos ⟨rfl, hmem⟩]
  have hcol := stateColor_hiddenPosition activations hiddenSize chunkSize c d hd
  have heta : (⟨(hiddenPosition chunkSize c d).x, (hiddenPosition chunkSize c d).y⟩ : cl_int2)
      = hiddenPosition chunkSize c d := rfl
  rw [heta, hcol]
  by_cases hw : d = chunkWinner activations hiddenSize chunkSize c
  · rw [if_pos hw, if_pos hw]
    cases st.order <;> rfl
  · rw [if_neg hw, if_neg hw]
    cases st.order <;> rfl

theorem sfcInhibitOther_oneWinner (activations st : Image) (hiddenSize chunkSize : cl_int2)
    (hx : 0 < chunkSize.x) (hy : 0 < chunkSize.y) :
    OneWinnerPerChunk hiddenSize chunkSize activations
      (sfcInhibitOther activations st hiddenSize chunkSize
        ⟨chunksExact hiddenSize.x chunkSize.x, chunksExact hiddenSize.y chunkSize.y⟩) := by
  intro c hcx hcy
  have hc : c ∈ ndRange
      ⟨chunksExact hiddenSize.x chunkSize.x, chunksExact hiddenSize.y chunkSize.y⟩ :=
    (mem_ndRange _ _).mpr ⟨hcx, hcy⟩
  have hx0 : c.x * chunkSize.x < hiddenSize.x := (lt_chunksExact_iff _ _ hx _).mp hcx
  have hy0 : c.y * chunkSize.y < hiddenSize.y := (lt_chunksExact_iff _ _ hy _).mp hcy
  have h00 : InChunk hiddenSize chunkSize c ⟨0, 0⟩ := ⟨hx, hy, hx0, hy0⟩
  have hsorted : (chunkUnits hiddenSize chunkSize c).Pairwise
      (fun a b => rowMajor chunkSize a < rowMajor chunkSize b) :=
    (ndRange_pairwise chunkSize).sublist (List.filter_sublist _)
  cases hU : chunkUnits hiddenSize chunkSize c with
  | nil =>
    have := (mem_chunkUnits hiddenSize chunkSize c ⟨0, 0⟩).mpr h00
    rw [hU] at this
    simp at this
  | cons d0 ds =>
    have hw : chunkWinner activations hiddenSize chunkSize c
        = scanMax (activationAt activations chunkSize c) d0 ds := by
      unfold chunkWinner
      rw [hU]
    obtain ⟨hmax, l1, l2, hsplit, hfirst⟩ :=
      scanMax_spec (activationAt activations chunkSize c) ds d0
    rw [← hw] at hmax hsplit hfirst
    have hunits : ∀ d, InChunk hiddenSize chunkSize c d ↔ d ∈ d0 :: ds := by
      intro d
      rw [← hU]
      exact (mem_chunkUnits hiddenSize chunkSize c d).symm
    have hwin : InChunk hiddenSize chunkSize c (chunkWinner activations hiddenSize chunkSize c) := by
      rw [hunits, hsplit]
      exact List.mem_append_right _ (List.mem_cons_self _ _)
    refine ⟨chunkWinner activations hiddenSize chunkSize c, hwin, ?_, ?_, ?_, ?_⟩
    · rw [sfcInhibitOther_stateAt activations st hiddenSize chunkSize _ c _ hc hwin, if_pos rfl]
    · intro d hd hne
      rw [sfcInhibitOther_stateAt activations st hiddenSize chunkSize _ c _ hc hd, if_neg hne]
    · intro d hd
      exact hmax d ((hunits d).mp hd)
    · intro d hd hkey
      have hmem : d ∈ l1 ++ chunkWinner activations hiddenSize chunkSize c :: l2 := by
        rw [← hsplit]
        exact (hunits d).mp hd
      rw [hU, hsplit] at hsorted
      rcases List.mem_append.mp hmem with h1 | h2
      · exact absurd hkey (ne_of_lt (hfirst d h1))
      · rcases List.mem_cons.mp h2 with rfl | h3
        · exact le_refl _
        · exact le_of_lt (List.rel_of_pairwise_cons (List.pairwise_append.mp hsorted).2.1 h3)

theorem sfcInhibitOther_pix_outside (activations st : Image)
    (hiddenSize chunkSize range : cl_int2) (x y z : Nat)
    (h : ∀ c ∈ ndRange range, ∀ d, InChunk hiddenSize chunkSize c d →
      hiddenPosition chunkSize c d ≠ ⟨x, y⟩) :
    (sfcInhibitOther activations st hiddenSize chunkSize range).pix x y z = st.pix x y z := by
  unfold sfcInhibitOther
  rw [sfcInhibitOther_eq, (foldl_write_spec _ _ st).2, if_neg]
  rintro ⟨_, hmem⟩
  obtain ⟨c, hc, hp⟩ := List.mem_flatMap.mp hmem
  obtain ⟨d, hd, hpos⟩ := List.mem_map.mp hp
  exact h c hc d ((mem_chunkUnits hiddenSize chunkSize c d).mp hd) hpos

theorem hiddenPosition_not_dispatched (hiddenSize chunkSize range c0 w c d : cl_int2)
    (hr : range.x ≤ c0.x) (hc : c ∈ ndRange range) (hd : InChunk hiddenSize chunkSize c d) :
    hiddenPosition chunkSize c d ≠ hiddenPosition chunkSize c0 w := by
  intro hpos
  have hcx : c.x < range.x := ((mem_ndRange _ c).mp hc).1
  have hdx : d.x < chunkSize.x := hd.1
  have hx : c.x * chunkSize.x + d.x = c0.x * chunkSize.x + w.x := congrArg cl_int2.x hpos
  have h1 : (c.x + 1) * chunkSize.x ≤ c0.x * chunkSize.x :=
    Nat.mul_le_mul_right _ (by omega)
  rw [Nat.add_mul, Nat.one_mul] at h1
  omega

theorem sfcInhibitOther_skips_chunk (activations st : Image)
    (hiddenSize chunkSize range c0 w : cl_int2) (z : Nat) (hr : range.x ≤ c0.x) :
    (sfcInhibitOther activations st hiddenSize chunkSize range).pix
        (hiddenPosition chunkSize c0 w).x (hiddenPosition chunkSize c0 w).y z
      = st.pix (hiddenPosition chunkSize c0 w).x (hiddenPosition chunkSize c0 w).y z := by
  apply sfcInhibitOther_pix_outside
  intro c hc d hd
  exact hiddenPosition_not_dispatched hiddenSize chunkSize range c0 w c d hr hc hd

theorem inhibit_skipped_chunk_has_no_winner (e : SparseFeaturesChunk)
    (activations states : Image) (c0 : cl_int2)
    (hr : chunksIn e._hiddenSize.x e._chunkSize.x ≤ c0.x)
    (hx : c0.x < chunksExact e._hiddenSize.x e._chunkSize.x)
    (hy : c0.y < chunksExact e._hiddenSize.y e._chunkSize.y)
    (hz : ∀ x y, (states.pix x y 0).r = 0) :
    ¬ OneWinnerPerChunk e._hiddenSize e._chunkSize activations
        (e.inhibit activations states) := by
  intro h
  obtain ⟨w, hin, hstate, _⟩ := h c0 hx hy
  have hskip := sfcInhibitOther_skips_chunk activations states e._hiddenSize e._chunkSize
    ⟨chunksIn e._hiddenSize.x e._chunkSize.x, chunksIn e._hiddenSize.y e._chunkSize.y⟩
    c0 w 0 hr
  simp only [stateAt, SparseFeaturesChunk.inhibit] at hstate
  rw [hskip, hz] at hstate
  exact zero_ne_one hstate

/-- C1, counterexample: hidden size 16777217 x 1 with chunk size 2 x 1. The
ceiling-division grid has 8388609 chunks along x, the single-precision count that
`inhibit` dispatches is 8388608, so the last chunk (hidden unit 16777216) is not
visited and keeps the state 0 it had before the call: it has no unit of state 1. -/
theorem inhibit_misses_chunk_above_float_range :
    0 < bigEncoder._chunkSize.x ∧ 0 < bigEncoder._chunkSize.y
      ∧ chunksExact bigEncoder._hiddenSize.x bigEncoder._chunkSize.x = 8388609
      ∧ chunksIn bigEncoder._hiddenSize.x bigEncoder._chunkSize.x = 8388608
      ∧ ¬ OneWinnerPerChunk bigEncoder._hiddenSize bigEncoder._chunkSize bigImage
          (bigEncoder.inhibit bigImage bigImage) :=
  ⟨by decide, by decide, by decide, by decide,
    inhibit_skipped_chunk_has_no_winner bigEncoder bigImage bigImage ⟨8388608, 0⟩
      (by decide) (by decide) (by decide) (fun _ _ => rfl)⟩

theorem activate_oneWinner (e : SparseFeaturesChunk) (K : Kernels)
    (visibleStates : List Image) (hx : 0 < e._chunkSize.x) (hy : 0 < e._chunkSize.y)
    (hbx : e._hiddenSize.x < 2 ^ 24) (hby : e._hiddenSize.y < 2 ^ 24) :
    OneWinnerPerChunk e._hiddenSize e._chunkSize
      (e.activate K visibleStates)._hiddenActivations.front
      (e.activate K visibleStates)._hiddenStates.front := by
  show OneWinnerPerChunk e._hiddenSize e._chunkSize _
    (sfcInhibit _ _ _ _ _
      ⟨chunksIn e._hiddenSize.x e._chunkSize.x, chunksIn e._hiddenSize.y e._chunkSize.y⟩).1
  rw [sfcInhibit_fst, chunksIn_eq_chunksExact _ _ hbx hx, chunksIn_eq_chunksExact _ _ hby hy]
  exact sfcInhibitOther_oneWinner _ _ _ _ hx hy

theorem oneWinner_not_allZero (hiddenSize chunkSize : cl_int2) (activations states : Image)
    (h : OneWinnerPerChunk hiddenSize chunkSize activations states)
    (hs : states.hasShape (region2 hiddenSize))
    (hx : 0 < chunksExact hiddenSize.x chunkSize.x)
    (hy : 0 < chunksExact hiddenSize.y chunkSize.y) : ¬ AllZero states := by
  intro hz
  obtain ⟨w, hin, hstate, _⟩ := h ⟨0, 0⟩ hx hy
  have h0 := hz (hiddenPosition chunkSize ⟨0, 0⟩ w).x (hiddenPosition chunkSize ⟨0, 0⟩ w).y 0
    (by rw [hs.1]; exact hin.2.2.1) (by rw [hs.2.1]; exact hin.2.2.2)
    (by rw [hs.2.2]; exact Nat.one_pos)
  unfold stateAt at hstate
  rw [h0] at hstate
  exact zero_ne_one hstate

/-- C1, amended: with a positive chunk size and hidden extents below `2 ^ 24`, after
the encoder's own inhibit step inside `activate` and after the external-activation
`inhibit`, every chunk of the ceiling-division chunk grid holds exactly one unit of
state 1 and its other units have state 0; the winner's activation is at least that
of every unit of its chunk, and the winner is the first unit of maximal activation
in row-major offset order. -/
theorem inhibit_one_winner_per_chunk (e : SparseFeaturesChunk) (K : Kernels)
    (visibleStates : List Image) (activations states : Image)
    (hx : 0 < e._chunkSize.x) (hy : 0 < e._chunkSize.y)
    (hbx : e._hiddenSize.x < 2 ^ 24) (hby : e._hiddenSize.y < 2 ^ 24) :
    OneWinnerPerChunk e._hiddenSize e._chunkSize
        (e.activate K visibleStates)._hiddenActivations.front
        (e.activate K visibleStates)._hiddenStates.front
      ∧ OneWinnerPerChunk e._hiddenSize e._chunkSize activations
        (e.inhibit activations states) := by
  refine ⟨activate_oneWinner e K visibleStates hx hy hbx hby, ?_⟩
  · show OneWinnerPerChunk e._hiddenSize e._chunkSize _
      (sfcInhibitOther _ _ _ _
        ⟨chunksIn e._hiddenSize.x e._chunkSize.x, chunksIn e._hiddenSize.y e._chunkSize.y⟩)
    rw [chunksIn_eq_chunksExact _ _ hbx hx, chunksIn_eq_chunksExact _ _ hby hy]
    exact sfcInhibitOther_oneWinner _ _ _ _ hx hy

/-- Witness of the amended C1 on the configuration of section 8 of the specification (hidden
4x4, chunk 2x2, giving 4 chunks). -/
theorem inhibit_one_winner_per_chunk_witness :
    0 < demoEncoder._chunkSize.x ∧ 0 < demoEncoder._chunkSize.y
      ∧ demoEncoder._hiddenSize.x < 2 ^ 24 ∧ demoEncoder._hiddenSize.y < 2 ^ 24
      ∧ (OneWinnerPerChunk demoEncoder._hiddenSize demoEncoder._chunkSize
          (demoEncoder.activate demoKernels [demoInput])._hiddenActivations.front
          (demoEncoder.activate demoKernels [demoInput])._hiddenStates.front
        ∧ OneWinnerPerChunk demoEncoder._hiddenSize demoEncoder._chunkSize demoInput
          (demoEncoder.inhibit demoInput demoInput)) :=
  ⟨by decide, by decide, by decide, by decide,
    inhibit_one_winner_per_chunk demoEncoder demoKernels [demoInput] demoInput demoInput
      (by decide) (by decide) (by decide) (by decide)⟩

/-! ### Frame properties of the pipeline -/

theorem activateLoop_frame (K : Kernels) (hiddenSize chunkSize : cl_int2) (numSamples : Nat)
    (vls : List VisibleLayer) (vlds : List VisibleLayerDesc) (visibleStates : List Image)
    (sum : DoubleBuffer) :
    List.Forall₂
      (fun vl vl1 : VisibleLayer =>
        vl1._weights = vl._weights
          ∧ vl1._derivedInput.back = vl._derivedInput.back
          ∧ vl1._samples.back = vl._samples.back
          ∧ vl1._hiddenToVisible = vl._hiddenToVisible
          ∧ vl1._visibleToHidden = vl._visibleToHidden
          ∧ vl1._chunkToVisible = vl._chunkToVisible
          ∧ vl1._reverseRadii = vl._reverseRadii)
      vls (activateLoop K hiddenSize chunkSize numSamples vls vlds visibleStates sum).1 := by
  induction vls generalizing vlds visibleStates sum with
  | nil => exact List.Forall₂.nil
  | cons vl vls ih =>
    simp only [activateLoop]
    exact List.Forall₂.cons ⟨rfl, rfl, rfl, rfl, rfl, rfl, rfl⟩ (ih _ _ _)

/-- C2: `activate` leaves both weight buffers of every visible layer unchanged, and
leaves unchanged the back instances of hidden state, hidden activation, chunk
winners and of each layer's derived input and sample history (it writes only the
front instances and the stimulus accumulator); the scale factors and the
configuration stay as well. Hence `activate` called directly after `stepEnd` leaves the weights
of every layer exactly as they were. -/
theorem activate_frame (e : SparseFeaturesChunk) (K : Kernels) (visibleStates : List Image) :
    List.Forall₂
        (fun vl vl1 : VisibleLayer =>
          vl1._weights = vl._weights
            ∧ vl1._derivedInput.back = vl._derivedInput.back
            ∧ vl1._samples.back = vl._samples.back
            ∧ vl1._hiddenToVisible = vl._hiddenToVisible
            ∧ vl1._visibleToHidden = vl._visibleToHidden
            ∧ vl1._chunkToVisible = vl._chunkToVisible
            ∧ vl1._reverseRadii = vl._reverseRadii)
        e._visibleLayers (e.activate K visibleStates)._visibleLayers
      ∧ (e.activate K visibleStates)._hiddenStates.back = e._hiddenStates.back
      ∧ (e.activate K visibleStates)._hiddenActivations.back = e._hiddenActivations.back
      ∧ (e.activate K visibleStates)._chunkWinners.back = e._chunkWinners.back
      ∧ (e.activate K visibleStates)._visibleLayerDescs = e._visibleLayerDescs
      ∧ (e.activate K visibleStates)._hiddenSize = e._hiddenSize
      ∧ (e.activate K visibleStates)._chunkSize = e._chunkSize
      ∧ (e.activate K visibleStates)._numSamples = e._numSamples
      ∧ List.Forall₂ (fun vl vl1 : VisibleLayer => vl1._weights = vl._weights)
        e._visibleLayers (e.stepEnd.activate K visibleStates)._visibleLayers := by
  refine ⟨activateLoop_frame _ _ _ _ _ _ _ _, rfl, rfl, rfl, rfl, rfl, rfl, rfl, ?_⟩
  have h := activateLoop_frame K e.stepEnd._hiddenSize e.stepEnd._chunkSize e.stepEnd._numSamples
    e.stepEnd._visibleLayers e.stepEnd._visibleLayerDescs visibleStates
    { e.stepEnd._hiddenSummationTemp with
      back := enqueueFillImage e.stepEnd._hiddenSummationTemp.back ⟨0, 0, 0, 0⟩ zeroOrigin
        ⟨e.stepEnd._hiddenSize.x, e.stepEnd._hiddenSize.y, 1⟩ }
  have hmap : e.stepEnd._visibleLayers = e._visibleLayers.map fun vl =>
      { vl with _derivedInput := vl._derivedInput.swap, _samples := vl._samples.swap } := rfl
  rw [hmap, List.forall₂_map_left_iff] at h
  exact h.imp fun _ _ hr => hr.1

/-- C3: `stepEnd` exchanges the front and back instances of hidden state, hidden
activation and chunk winners and of every layer's derived input and sample history,
and changes nothing else: the weight buffers and scale factors of every layer, the
stimulus accumulator and the configuration are the same before and after. -/
theorem stepEnd_swaps_only (e : SparseFeaturesChunk) :
    e.stepEnd._hiddenStates.front = e._hiddenStates.back
      ∧ e.stepEnd._hiddenStates.back = e._hiddenStates.front
      ∧ e.stepEnd._hiddenActivations.front = e._hiddenActivations.back
      ∧ e.stepEnd._hiddenActivations.back = e._hiddenActivations.front
      ∧ e.stepEnd._chunkWinners.front = e._chunkWinners.back
      ∧ e.stepEnd._chunkWinners.back = e._chunkWinners.front
      ∧ List.Forall₂
          (fun vl vl1 : VisibleLayer =>
            vl1._derivedInput.front = vl._derivedInput.back
              ∧ vl1._derivedInput.back = vl._derivedInput.front
              ∧ vl1._samples.front = vl._samples.back
              ∧ vl1._samples.back = vl._samples.front
              ∧ vl1._weights = vl._weights
              ∧ vl1._hiddenToVisible = vl._hiddenToVisible
              ∧ vl1._visibleToHidden = vl._visibleToHidden
              ∧ vl1._chunkToVisible = vl._chunkToVisible
              ∧ vl1._reverseRadii = vl._reverseRadii)
          e._visibleLayers e.stepEnd._visibleLayers
      ∧ e.stepEnd._hiddenSummationTemp = e._hiddenSummationTemp
      ∧ e.stepEnd._visibleLayerDescs = e._visibleLayerDescs
      ∧ e.stepEnd._hiddenSize = e._hiddenSize
      ∧ e.stepEnd._chunkSize = e._chunkSize
      ∧ e.stepEnd._numSamples = e._numSamples := by
  refine ⟨rfl, rfl, rfl, rfl, rfl, rfl, ?_, rfl, rfl, rfl, rfl, rfl⟩
  have hmap : e.stepEnd._visibleLayers = e._visibleLayers.map fun vl =>
      { vl with _derivedInput := vl._derivedInput.swap, _samples := vl._samples.swap } := rfl
  rw [hmap, List.forall₂_map_right_iff]
  exact List.forall₂_same.mpr fun _ _ => ⟨rfl, rfl, rfl, rfl, rfl, rfl, rfl, rfl, rfl⟩

theorem headD_eq_getD_zero (vlds : List VisibleLayerDesc) :
    vlds.headD default = vlds.getD 0 default := by
  cases vlds <;> rfl

theorem tail_getD (vlds : List VisibleLayerDesc) (i : Nat) :
    vlds.tail.getD i default = vlds.getD (i + 1) default := by
  cases vlds <;> rfl

theorem learnLoop_length (K : Kernels) (hiddenSize chunkSize : cl_int2) (numSamples : Nat)
    (chunkWinners : DoubleBuffer) (vls : List VisibleLayer) (vlds : List VisibleLayerDesc) :
    (learnLoop K hiddenSize chunkSize numSamples chunkWinners vls vlds).length = vls.length := by
  induction vls generalizing vlds with
  | nil => rfl
  | cons vl vls ih => simp only [learnLoop, List.length_cons, ih]

theorem learnLoop_getElem (K : Kernels) (hiddenSize chunkSize : cl_int2) (numSamples : Nat)
    (chunkWinners : DoubleBuffer) (vls : List VisibleLayer) (vlds : List VisibleLayerDesc)
    (i : Nat) (vl : VisibleLayer) (h : vls[i]? = some vl) :
    (learnLoop K hiddenSize chunkSize numSamples chunkWinners vls vlds)[i]?
      = some
        { vl with
          _weights :=
            { front := vl._weights.back
              back := vl._weights.front.withPixels
                (K.sfcLearnWeights chunkWinners.front chunkWinners.back vl._samples.front
                  vl._weights.back vl._weights.front hiddenSize (vlds.getD i default)._size
                  vl._chunkToVisible chunkSize (vlds.getD i default)._radius
                  (vlds.getD i default)._weightAlpha numSamples hiddenSize) } } := by
  induction vls generalizing vlds i with
  | nil => simp at h
  | cons v vls ih =>
    cases i with
    | zero =>
      simp only [List.getElem?_cons_zero, Option.some.injEq] at h
      subst h
      simp only [learnLoop, List.getElem?_cons_zero, headD_eq_getD_zero]
      rfl
    | succ i =>
      simp only [List.getElem?_cons_succ] at h
      simp only [learnLoop, List.getElem?_cons_succ]
      rw [ih vlds.tail i h]
      simp only [tail_getD]

/-- C4: for every visible layer, `learn` computes the new weights from the front and
back chunk winners, the layer's front sample history and the layer's back weights
(with the layer's and the encoder's scalars), writes them into the front weight
image and swaps: afterwards the layer's back weights are the new weights and its
front weights are the weights that were current (back) before the call. Nothing
else changes: the layer's derived input, sample history and scale factors, hidden
state, hidden activation, chunk winners, accumulator and configuration. -/
theorem learn_updates_and_swaps_weights (e : SparseFeaturesChunk) (K : Kernels) :
    (e.learn K)._visibleLayers.length = e._visibleLayers.length
      ∧ (∀ (i : Nat) (vl : VisibleLayer), e._visibleLayers[i]? = some vl →
          ∃ vl1 : VisibleLayer, (e.learn K)._visibleLayers[i]? = some vl1
            ∧ vl1._weights.back = vl._weights.front.withPixels
                (K.sfcLearnWeights e._chunkWinners.front e._chunkWinners.back vl._samples.front
                  vl._weights.back vl._weights.front e._hiddenSize
                  (e._visibleLayerDescs.getD i default)._size vl._chunkToVisible e._chunkSize
                  (e._visibleLayerDescs.getD i default)._radius
                  (e._visibleLayerDescs.getD i default)._weightAlpha e._numSamples e._hiddenSize)
            ∧ vl1._weights.front = vl._weights.back
            ∧ vl1._derivedInput = vl._derivedInput
            ∧ vl1._samples = vl._samples
            ∧ vl1._hiddenToVisible = vl._hiddenToVisible
            ∧ vl1._visibleToHidden = vl._visibleToHidden
            ∧ vl1._chunkToVisible = vl._chunkToVisible
            ∧ vl1._reverseRadii = vl._reverseRadii)
      ∧ (e.learn K)._hiddenStates = e._hiddenStates
      ∧ (e.learn K)._hiddenActivations = e._hiddenActivations
      ∧ (e.learn K)._chunkWinners = e._chunkWinners
      ∧ (e.learn K)._hiddenSummationTemp = e._hiddenSummationTemp
      ∧ (e.learn K)._visibleLayerDescs = e._visibleLayerDescs
      ∧ (e.learn K)._hiddenSize = e._hiddenSize
      ∧ (e.learn K)._chunkSize = e._chunkSize
      ∧ (e.learn K)._numSamples = e._numSamples := by
  refine ⟨learnLoop_length _ _ _ _ _ _ _, ?_, rfl, rfl, rfl, rfl, rfl, rfl, rfl, rfl⟩
  intro i vl h
  exact ⟨_, learnLoop_getElem K e._hiddenSize e._chunkSize e._numSamples e._chunkWinners
    e._visibleLayers e._visibleLayerDescs i vl h, rfl, rfl, rfl, rfl, rfl, rfl, rfl, rfl⟩

/-! ### Fills, shapes and `clearMemory` -/

theorem enqueueFillImage_shape (img : Image) (c : cl_float4) (o r s : size3)
    (h : img.hasShape s) : (enqueueFillImage img c o r).hasShape s := by
  unfold enqueueFillImage
  split
  · exact h
  · exact h

theorem enqueueFillImage_pix (img : Image) (c : cl_float4) (s : size3) (h : img.hasShape s)
    (x y z : Nat) (hx : x < s.x) (hy : y < s.y) (hz : z < s.z) :
    (enqueueFillImage img c zeroOrigin s).pix x y z = texelOf img.order c := by
  obtain ⟨hw, hh, hd⟩ := h
  have hfit : zeroOrigin.x + s.x ≤ img.width ∧ zeroOrigin.y + s.y ≤ img.height
      ∧ zeroOrigin.z + s.z ≤ img.depth := by
    simp only [zeroOrigin]
    omega
  have hin : zeroOrigin.x ≤ x ∧ x < zeroOrigin.x + s.x ∧ zeroOrigin.y ≤ y
      ∧ y < zeroOrigin.y + s.y ∧ zeroOrigin.z ≤ z ∧ z < zeroOrigin.z + s.z := by
    simp only [zeroOrigin]
    omega
  unfold enqueueFillImage
  rw [if_pos hfit]
  simp only [if_pos hin]

theorem texelOf_zeroColor (o : ChannelOrder) : texelOf o zeroColor = ⟨0, 0⟩ := by
  cases o <;> rfl

theorem enqueueFillImage_allZero (img : Image) (s : size3) (h : img.hasShape s) :
    AllZero (enqueueFillImage img zeroColor zeroOrigin s) := by
  have hs := enqueueFillImage_shape img zeroColor zeroOrigin s s h
  intro x y z hx hy hz
  rw [hs.1] at hx
  rw [hs.2.1] at hy
  rw [hs.2.2] at hz
  rw [enqueueFillImage_pix img zeroColor s h x y z hx hy hz, texelOf_zeroColor]

theorem clearLoop_spec (hiddenSize : cl_int2) (numSamples : Nat) (vls : List VisibleLayer)
    (vlds : List VisibleLayerDesc)
    (h : List.Forall₂ (LayerShaped hiddenSize numSamples) vls vlds) :
    List.Forall₂
      (fun vl vl1 : VisibleLayer =>
        AllZero vl1._derivedInput.back
          ∧ AllZero vl1._samples.back
          ∧ vl1._samples.back.depth = numSamples
          ∧ vl1._weights = vl._weights)
      vls (clearLoop numSamples vls vlds) := by
  induction h with
  | nil => exact List.Forall₂.nil
  | cons hl _ ih =>
    simp only [clearLoop, List.headD_cons, List.tail_cons]
    refine List.Forall₂.cons ⟨?_, ?_, ?_, rfl⟩ ih
    · exact enqueueFillImage_allZero _ _ hl.1.2
    · exact enqueueFillImage_allZero _ _ hl.2.1.2
    · exact (enqueueFillImage_shape _ _ _ _ _ hl.2.1.2).2.2

theorem createLayer_weights_hasShape (mem : Nat → Nat → Nat → Nat → Texel)
    (rnd : Nat → Nat → Nat → Nat → ℚ) (hiddenSize chunkSize : cl_int2) (numSamples : Nat)
    (vli : Nat) (vld : VisibleLayerDesc) :
    (createLayer mem rnd hiddenSize chunkSize numSamples vli vld)._weights.hasShape
      (weightsSize hiddenSize numSamples vld) := by
  have h : (createLayer mem rnd hiddenSize chunkSize numSamples vli vld)._weights
      = { front :=
            (createDoubleBuffer mem (3 * vli) (weightsSize hiddenSize numSamples vld) .CL_R).front
          back := randomUniform
            (createDoubleBuffer mem (3 * vli) (weightsSize hiddenSize numSamples vld) .CL_R).back
            (weightsSize hiddenSize numSamples vld) (rnd vli) } := rfl
  rw [h]
  generalize weightsSize hiddenSize numSamples vld = sz
  exact ⟨⟨rfl, rfl, rfl⟩, ⟨rfl, rfl, rfl⟩⟩

theorem createLayers_shaped (mem : Nat → Nat → Nat → Nat → Texel)
    (rnd : Nat → Nat → Nat → Nat → ℚ) (hiddenSize chunkSize : cl_int2) (numSamples : Nat)
    (vli : Nat) (vlds : List VisibleLayerDesc) :
    List.Forall₂ (LayerShaped hiddenSize numSamples)
      (createLayers mem rnd hiddenSize chunkSize numSamples vli vlds) vlds := by
  induction vlds generalizing vli with
  | nil => exact List.Forall₂.nil
  | cons vld vlds ih =>
    simp only [createLayers]
    refine List.Forall₂.cons ⟨⟨?_, ?_⟩, ⟨?_, ?_⟩, ?_⟩ (ih _)
    · exact ⟨rfl, rfl, rfl⟩
    · exact enqueueFillImage_shape _ _ _ _ _ ⟨rfl, rfl, rfl⟩
    · exact ⟨rfl, rfl, rfl⟩
    · exact enqueueFillImage_shape _ _ _ _ _ ⟨rfl, rfl, rfl⟩
    · exact createLayer_weights_hasShape _ _ _ _ _ _ _

theorem construct_wellShaped (mem : Nat → Nat → Nat → Nat → Texel)
    (rnd : Nat → Nat → Nat → Nat → ℚ) (vlds : List VisibleLayerDesc)
    (hiddenSize chunkSize : cl_int2) (numSamples : Nat) :
    WellShaped (SparseFeaturesChunk.construct mem rnd vlds hiddenSize chunkSize numSamples) := by
  refine ⟨⟨?_, ?_⟩, ⟨?_, ?_⟩, ⟨?_, ?_⟩, ⟨?_, ?_⟩, createLayers_shaped _ _ _ _ _ _ _⟩
  · exact ⟨rfl, rfl, rfl⟩
  · exact enqueueFillImage_shape _ _ _ _ _ ⟨rfl, rfl, rfl⟩
  · exact ⟨rfl, rfl, rfl⟩
  · exact enqueueFillImage_shape _ _ _ _ _ ⟨rfl, rfl, rfl⟩
  · exact ⟨rfl, rfl, rfl⟩
  · exact ⟨rfl, rfl, rfl⟩
  · exact ⟨rfl, rfl, rfl⟩
  · exact ⟨rfl, rfl, rfl⟩

theorem clearMemory_zero_hidden (e : SparseFeaturesChunk) (h : WellShaped e) :
    AllZero e.clearMemory._hiddenStates.back :=
  enqueueFillImage_allZero _ _ h.1.2

/-- C8: for an encoder whose tensors have their constructed extents, after
`clearMemory` every cell of the back hidden state, of the back hidden activation and
of every layer's back derived input and back sample history (whose depth is
`numSamples`) is zero, and every layer's weight buffer, front and back, is what it
was before the call. -/
theorem clearMemory_zeroes_and_keeps_weights (e : SparseFeaturesChunk) (h : WellShaped e) :
    AllZero e.clearMemory._hiddenStates.back
      ∧ AllZero e.clearMemory._hiddenActivations.back
      ∧ List.Forall₂
          (fun vl vl1 : VisibleLayer =>
            AllZero vl1._derivedInput.back
              ∧ AllZero vl1._samples.back
              ∧ vl1._samples.back.depth = e._numSamples
              ∧ vl1._weights = vl._weights)
          e._visibleLayers e.clearMemory._visibleLayers :=
  ⟨enqueueFillImage_allZero _ _ h.1.2, enqueueFillImage_allZero _ _ h.2.1.2,
    clearLoop_spec _ _ _ _ h.2.2.2.2⟩

/-! ### Persistence -/

theorem loadDoubleBuffer_of_fits (db : DoubleBuffer) (fb : schemas.DoubleBuffer)
    (h : db.Fits fb) : loadDoubleBuffer db fb = some (db.loaded fb) := by
  unfold loadDoubleBuffer
  rw [h.1, h.2]
  rfl

theorem fits_of_loadDoubleBuffer (db db1 : DoubleBuffer) (fb : schemas.DoubleBuffer)
    (h : loadDoubleBuffer db fb = some db1) : db.Fits fb ∧ db1 = db.loaded fb := by
  unfold loadDoubleBuffer at h
  split at h
  · rename_i hc
    rw [Bool.and_eq_true] at hc
    simp only [Option.some.injEq] at h
    exact ⟨hc, h.symm⟩
  · simp at h

theorem layer_load_of_fits (vl : VisibleLayer) (fb : schemas.VisibleChunkLayer)
    (h : vl.Fits fb) : vl.load fb = some (vl.loaded fb) := by
  unfold VisibleLayer.load
  rw [loadDoubleBuffer_of_fits _ _ h.1, loadDoubleBuffer_of_fits _ _ h.2.1,
    loadDoubleBuffer_of_fits _ _ h.2.2]
  rfl

theorem layer_fits_of_load (vl vl1 : VisibleLayer) (fb : schemas.VisibleChunkLayer)
    (h : vl.load fb = some vl1) : vl.Fits fb ∧ vl1 = vl.loaded fb := by
  unfold VisibleLayer.load at h
  split at h
  · simp at h
  · rename_i d hd
    split at h
    · simp at h
    · rename_i sm hs
      split at h
      · simp at h
      · rename_i w hw
        obtain ⟨f1, e1⟩ := fits_of_loadDoubleBuffer _ _ _ hd
        obtain ⟨f2, e2⟩ := fits_of_loadDoubleBuffer _ _ _ hs
        obtain ⟨f3, e3⟩ := fits_of_loadDoubleBuffer _ _ _ hw
        simp only [Option.some.injEq] at h
        refine ⟨⟨f1, f2, f3⟩, ?_⟩
        rw [← h, e1, e2, e3]
        rfl

theorem loadLayers_of_fits (vls : List VisibleLayer) (fbs : List schemas.VisibleChunkLayer)
    (h : List.Forall₂ VisibleLayer.Fits vls fbs) :
    loadLayers vls fbs = some (List.zipWith VisibleLayer.loaded vls fbs) := by
  induction h with
  | nil => rfl
  | cons hl _ ih =>
    simp only [loadLayers, layer_load_of_fits _ _ hl, ih, List.zipWith_cons_cons]

theorem fits_of_loadLayers (vls ls : List VisibleLayer) (fbs : List schemas.VisibleChunkLayer)
    (hlen : vls.length = fbs.length) (h : loadLayers vls fbs = some ls) :
    List.Forall₂ VisibleLayer.Fits vls fbs ∧ ls = List.zipWith VisibleLayer.loaded vls fbs := by
  induction vls generalizing fbs ls with
  | nil =>
    cases fbs with
    | nil =>
      simp only [loadLayers, Option.some.injEq] at h
      exact ⟨List.Forall₂.nil, h.symm⟩
    | cons fb fbs => simp at hlen
  | cons vl vls ih =>
    cases fbs with
    | nil => simp at hlen
    | cons fb fbs =>
      simp only [List.length_cons, Nat.add_right_cancel_iff] at hlen
      simp only [loadLayers] at h
      split at h
      · simp at h
      · rename_i vl1 h1
        split at h
        · simp at h
        · rename_i rest h2
          obtain ⟨f1, e1⟩ := layer_fits_of_load _ _ _ h1
          obtain ⟨f2, e2⟩ := ih rest fbs hlen h2
          simp only [Option.some.injEq] at h
          refine ⟨List.Forall₂.cons f1 f2, ?_⟩
          rw [← h, e1, e2, List.zipWith_cons_cons]

theorem encoder_load_of_fits (e : SparseFeaturesChunk) (fb : schemas.SparseFeatures)
    (h : e.Fits fb) : e.load fb = .ok (e.loaded fb) := by
  obtain ⟨h1, h2, h3, h4, h5, h6, h7, h8, h9⟩ := h
  unfold SparseFeaturesChunk.load
  simp only [ne_eq, h1, h2, h3, h4, h9.length_eq, not_true_eq_false, if_false,
    loadDoubleBuffer_of_fits _ _ h5, loadDoubleBuffer_of_fits _ _ h6,
    loadDoubleBuffer_of_fits _ _ h7, loadDoubleBuffer_of_fits _ _ h8,
    loadLayers_of_fits _ _ h9]
  rfl

theorem encoder_fits_of_load (e e1 : SparseFeaturesChunk)
    (fb : schemas.SparseFeatures) (h : e.load fb = .ok e1) : e.Fits fb ∧ e1 = e.loaded fb := by
  by_cases htag : fb._sf_type = .SparseFeaturesType_SparseFeaturesChunk
  swap
  · simp [SparseFeaturesChunk.load, htag] at h
  by_cases hx : e._hiddenSize.x = fb._sf._hiddenSize.x
  swap
  · simp [SparseFeaturesChunk.load, htag, hx] at h
  by_cases hy : e._hiddenSize.y = fb._sf._hiddenSize.y
  swap
  · simp [SparseFeaturesChunk.load, htag, hx, hy] at h
  by_cases hd : e._visibleLayerDescs.length = fb._sf._visibleLayerDescs.length
  swap
  · simp [SparseFeaturesChunk.load, htag, hx, hy, hd] at h
  by_cases hl : e._visibleLayers.length = fb._sf._visibleLayers.length
  swap
  · simp [SparseFeaturesChunk.load, htag, hx, hy, hd, hl] at h
  simp only [SparseFeaturesChunk.load, ne_eq, htag, hx, hy, hd, hl, not_true_eq_false,
    if_false] at h
  cases h1 : loadDoubleBuffer e._hiddenStates fb._sf._hiddenStates with
  | none => simp [h1] at h
  | some hs =>
    cases h2 : loadDoubleBuffer e._hiddenActivations fb._sf._hiddenActivations with
    | none => simp [h1, h2] at h
    | some ha =>
      cases h3 : loadDoubleBuffer e._chunkWinners fb._sf._chunkWinners with
      | none => simp [h1, h2, h3] at h
      | some cw =>
        cases h4 : loadDoubleBuffer e._hiddenSummationTemp fb._sf._hiddenSummationTemp with
        | none => simp [h1, h2, h3, h4] at h
        | some st =>
          cases h5 : loadLayers e._visibleLayers fb._sf._visibleLayers with
          | none => simp [h1, h2, h3, h4, h5] at h
          | some ls =>
            simp only [h1, h2, h3, h4, h5, Except.ok.injEq] at h
            obtain ⟨f1, e1⟩ := fits_of_loadDoubleBuffer _ _ _ h1
            obtain ⟨f2, e2⟩ := fits_of_loadDoubleBuffer _ _ _ h2
            obtain ⟨f3, e3⟩ := fits_of_loadDoubleBuffer _ _ _ h3
            obtain ⟨f4, e4⟩ := fits_of_loadDoubleBuffer _ _ _ h4
            obtain ⟨f5, e5⟩ := fits_of_loadLayers _ _ _ hl h5
            refine ⟨⟨htag, hx, hy, hd, f1, f2, f3, f4, f5⟩, ?_⟩
            rw [← h, e1, e2, e3, e4, e5]
            rfl

theorem saveDoubleBuffer_fits (db db1 : DoubleBuffer) (s : size3) (h : db.hasShape s)
    (h1 : db1.hasShape s) : db.Fits (saveDoubleBuffer db1) := by
  obtain ⟨⟨a1, a2, a3⟩, ⟨b1, b2, b3⟩⟩ := h
  obtain ⟨⟨c1, c2, c3⟩, ⟨d1, d2, d3⟩⟩ := h1
  constructor
  · simp only [sameShape, saveDoubleBuffer, saveImage, decide_eq_true_eq]
    exact ⟨by rw [a1, c1], by rw [a2, c2], by rw [a3, c3]⟩
  · simp only [sameShape, saveDoubleBuffer, saveImage, decide_eq_true_eq]
    exact ⟨by rw [b1, d1], by rw [b2, d2], by rw [b3, d3]⟩

theorem save_layers_fit (hiddenSize : cl_int2) (numSamples : Nat) (vlds : List VisibleLayerDesc)
    (bl al : List VisibleLayer)
    (hb : List.Forall₂ (LayerShaped hiddenSize numSamples) bl vlds)
    (ha : List.Forall₂ (LayerShaped hiddenSize numSamples) al vlds) :
    List.Forall₂ VisibleLayer.Fits bl (al.map VisibleLayer.save) := by
  induction hb generalizing al with
  | nil =>
    cases ha
    exact List.Forall₂.nil
  | cons hl _ ih =>
    cases ha with
    | cons hl1 ha1 =>
      refine List.Forall₂.cons ⟨?_, ?_, ?_⟩ (ih _ ha1)
      · exact saveDoubleBuffer_fits _ _ _ hl.1 hl1.1
      · exact saveDoubleBuffer_fits _ _ _ hl.2.1 hl1.2.1
      · exact saveDoubleBuffer_fits _ _ _ hl.2.2 hl1.2.2

theorem save_fits (A B : SparseFeaturesChunk) (hA : WellShaped A) (hB : WellShaped B)
    (hd : B._visibleLayerDescs = A._visibleLayerDescs) (hh : B._hiddenSize = A._hiddenSize)
    (hc : B._chunkSize = A._chunkSize) (hn : B._numSamples = A._numSamples) :
    B.Fits A.save.1 := by
  obtain ⟨a1, a2, a3, a4, a5⟩ := hA
  obtain ⟨b1, b2, b3, b4, b5⟩ := hB
  rw [hh] at b1 b2 b4
  rw [hh, hc] at b3
  rw [hh, hn, hd] at b5
  refine ⟨rfl, ?_, ?_, ?_, ?_, ?_, ?_, ?_, ?_⟩
  · rw [hh]; rfl
  · rw [hh]; rfl
  · rw [hd]
    exact (List.length_map _ _).symm
  · exact saveDoubleBuffer_fits _ _ _ b1 a1
  · exact saveDoubleBuffer_fits _ _ _ b2 a2
  · exact saveDoubleBuffer_fits _ _ _ b3 a3
  · exact saveDoubleBuffer_fits _ _ _ b4 a4
  · exact save_layers_fit _ _ _ _ _ b5 a5

theorem zipWith_loaded_content (bl al : List VisibleLayer) (h : bl.length = al.length) :
    List.Forall₂
      (fun a b1 : VisibleLayer =>
        b1._derivedInput.sameContent a._derivedInput
          ∧ b1._samples.sameContent a._samples
          ∧ b1._weights.sameContent a._weights
          ∧ b1._hiddenToVisible = a._hiddenToVisible
          ∧ b1._visibleToHidden = a._visibleToHidden
          ∧ b1._reverseRadii = a._reverseRadii)
      al (List.zipWith VisibleLayer.loaded bl (al.map VisibleLayer.save)) := by
  induction bl generalizing al with
  | nil =>
    cases al with
    | nil => exact List.Forall₂.nil
    | cons a al => simp at h
  | cons b bl ih =>
    cases al with
    | nil => simp at h
    | cons a al =>
      simp only [List.length_cons, Nat.add_right_cancel_iff] at h
      simp only [List.map_cons, List.zipWith_cons_cons]
      exact List.Forall₂.cons ⟨⟨rfl, rfl⟩, ⟨rfl, rfl⟩, ⟨rfl, rfl⟩, rfl, rfl, rfl⟩ (ih al h)

/-- C5: for an encoder A whose tensors have their constructed extents, loading the
record saved by A into a freshly constructed encoder of the same configuration
(layer descriptions, hidden size, chunk size, sample depth) succeeds and gives
every runtime tensor (hidden state, hidden activation, chunk winners, accumulator,
and each layer's derived input, sample history and weights) the content of the
corresponding tensor of A; `save` leaves A unchanged. -/
theorem save_load_roundtrip (A : SparseFeaturesChunk) (hA : WellShaped A)
    (mem : Nat → Nat → Nat → Nat → Texel) (rnd : Nat → Nat → Nat → Nat → ℚ) :
    ∃ B1 : SparseFeaturesChunk,
      (SparseFeaturesChunk.construct mem rnd A._visibleLayerDescs A._hiddenSize A._chunkSize
          A._numSamples).load A.save.1 = .ok B1
        ∧ B1._hiddenStates.sameContent A._hiddenStates
        ∧ B1._hiddenActivations.sameContent A._hiddenActivations
        ∧ B1._chunkWinners.sameContent A._chunkWinners
        ∧ B1._hiddenSummationTemp.sameContent A._hiddenSummationTemp
        ∧ List.Forall₂
            (fun a b1 : VisibleLayer =>
              b1._derivedInput.sameContent a._derivedInput
                ∧ b1._samples.sameContent a._samples
                ∧ b1._weights.sameContent a._weights)
            A._visibleLayers B1._visibleLayers
        ∧ A.save.2 = A := by
  have hB := construct_wellShaped mem rnd A._visibleLayerDescs A._hiddenSize A._chunkSize
    A._numSamples
  have hfit := save_fits A _ hA hB rfl rfl rfl rfl
  refine ⟨_, encoder_load_of_fits _ _ hfit, ⟨rfl, rfl⟩, ⟨rfl, rfl⟩, ⟨rfl, rfl⟩,
    ⟨rfl, rfl⟩, ?_, rfl⟩
  have hlen := hfit.2.2.2.2.2.2.2.2.length_eq
  have hsave : A.save.1._sf._visibleLayers = A._visibleLayers.map VisibleLayer.save := rfl
  rw [hsave, List.length_map] at hlen
  exact (zipWith_loaded_content _ _ hlen).imp fun _ _ hr => ⟨hr.1, hr.2.1, hr.2.2.1⟩

/-- Witness of C5: the constructed encoder of section 8 of the specification, saved and loaded
into a fresh encoder of the same configuration with other memory content. -/
theorem save_load_roundtrip_witness :
    WellShaped demoEncoder
      ∧ ∃ B1 : SparseFeaturesChunk,
        (SparseFeaturesChunk.construct (fun _ _ _ _ => ⟨9, 9⟩) (fun _ _ _ _ => 1)
            demoEncoder._visibleLayerDescs demoEncoder._hiddenSize demoEncoder._chunkSize
            demoEncoder._numSamples).load demoEncoder.save.1 = .ok B1
          ∧ B1._hiddenStates.sameContent demoEncoder._hiddenStates
          ∧ B1._hiddenActivations.sameContent demoEncoder._hiddenActivations
          ∧ B1._chunkWinners.sameContent demoEncoder._chunkWinners
          ∧ B1._hiddenSummationTemp.sameContent demoEncoder._hiddenSummationTemp
          ∧ List.Forall₂
              (fun a b1 : VisibleLayer =>
                b1._derivedInput.sameContent a._derivedInput
                  ∧ b1._samples.sameContent a._samples
                  ∧ b1._weights.sameContent a._weights)
              demoEncoder._visibleLayers B1._visibleLayers
          ∧ demoEncoder.save.2 = demoEncoder :=
  ⟨construct_wellShaped _ _ _ _ _ _,
    save_load_roundtrip demoEncoder (construct_wellShaped _ _ _ _ _ _) (fun _ _ _ _ => ⟨9, 9⟩)
      (fun _ _ _ _ => 1)⟩

/-- C6: when the recorded hidden size differs from the live one in x or in y, `load`
fails, and it fails before any assignment: the encoder at the failed assertion is
the encoder that was passed in, hidden size included. The same holds for the
`load` of the encoder description. -/
theorem load_rejects_hidden_size_mismatch (e : SparseFeaturesChunk) (fb : schemas.SparseFeatures)
    (d : SparseFeaturesChunkDesc) (fbd : schemas.SparseFeaturesChunkDesc)
    (h : fb._sf._hiddenSize.x ≠ e._hiddenSize.x ∨ fb._sf._hiddenSize.y ≠ e._hiddenSize.y)
    (hd : fbd._hiddenSize.x ≠ d._hiddenSize.x ∨ fbd._hiddenSize.y ≠ d._hiddenSize.y) :
    e.load fb = .error e ∧ d.load fbd = .error d := by
  constructor
  · unfold SparseFeaturesChunk.load
    by_cases htag : fb._sf_type = .SparseFeaturesType_SparseFeaturesChunk
    · by_cases hx : e._hiddenSize.x = fb._sf._hiddenSize.x
      · have hy : e._hiddenSize.y ≠ fb._sf._hiddenSize.y := by
          rcases h with h | h
          · exact absurd hx.symm h
          · exact fun hh => h hh.symm
        simp [htag, hx, hy]
      · simp [htag, hx]
    · simp [htag]
  · unfold SparseFeaturesChunkDesc.load
    by_cases hx : d._hiddenSize.x = fbd._hiddenSize.x
    · have hy : d._hiddenSize.y ≠ fbd._hiddenSize.y := by
        rcases hd with hd | hd
        · exact absurd hx.symm hd
        · exact fun hh => hd hh.symm
      simp [hx, hy]
    · simp [hx]

/-- Witness of C6: the encoder of hidden size 4x4 with a record of hidden size 8x4,
and its description with a record of hidden size 4x8. -/
theorem load_rejects_hidden_size_mismatch_witness :
    (demoRecordHidden._sf._hiddenSize.x ≠ demoEncoder._hiddenSize.x
        ∨ demoRecordHidden._sf._hiddenSize.y ≠ demoEncoder._hiddenSize.y)
      ∧ (demoDescRecordHidden._hiddenSize.x ≠ demoDesc._hiddenSize.x
        ∨ demoDescRecordHidden._hiddenSize.y ≠ demoDesc._hiddenSize.y)
      ∧ (demoEncoder.load demoRecordHidden = .error demoEncoder
        ∧ demoDesc.load demoDescRecordHidden = .error demoDesc) :=
  ⟨Or.inl (by decide), Or.inr (by decide),
    load_rejects_hidden_size_mismatch demoEncoder demoRecordHidden demoDesc demoDescRecordHidden
      (Or.inl (by decide)) (Or.inr (by decide))⟩

theorem demoEncoder_fits_demoRecord : demoEncoder.Fits demoRecord :=
  save_fits demoEncoder demoEncoder (construct_wellShaped _ _ _ _ _ _)
    (construct_wellShaped _ _ _ _ _ _) rfl rfl rfl rfl

theorem loadDescs_sizes (vlds : List VisibleLayerDesc)
    (fbs : List schemas.VisibleChunkLayerDesc) (h : vlds.length = fbs.length) :
    List.Forall₂ (fun (d : VisibleLayerDesc) (fbd : schemas.VisibleChunkLayerDesc) =>
      d._size = fbd._size) (loadDescs vlds fbs) fbs := by
  induction vlds generalizing fbs with
  | nil =>
    cases fbs with
    | nil => exact List.Forall₂.nil
    | cons fb fbs => simp at h
  | cons vld vlds ih =>
    cases fbs with
    | nil => simp at h
    | cons fb fbs =>
      simp only [List.length_cons, Nat.add_right_cancel_iff] at h
      simp only [loadDescs]
      exact List.Forall₂.cons rfl (ih fbs h)

/-- C7, counterexample: the encoder whose layer has the configured size 4x4 loads a
record whose layer description has the size 8x8; `load` succeeds and the layer's
configured size is then 8x8. -/
theorem load_overwrites_layer_size :
    (demoEncoder._visibleLayerDescs.map fun d => d._size) = [⟨4, 4⟩]
      ∧ (demoRecordLayerSize._sf._visibleLayerDescs.map fun d => d._size) = [⟨8, 8⟩]
      ∧ ∃ e1 : SparseFeaturesChunk, demoEncoder.load demoRecordLayerSize = .ok e1
        ∧ (e1._visibleLayerDescs.map fun d => d._size) = [⟨8, 8⟩] := by
  have h := demoEncoder_fits_demoRecord
  have hfit : demoEncoder.Fits demoRecordLayerSize :=
    ⟨h.1, h.2.1, h.2.2.1, rfl, h.2.2.2.2.1, h.2.2.2.2.2.1, h.2.2.2.2.2.2.1,
      h.2.2.2.2.2.2.2.1, h.2.2.2.2.2.2.2.2⟩
  exact ⟨rfl, rfl, _, encoder_load_of_fits _ _ hfit, rfl⟩

/-- C7, amended: `load` succeeds only if the recorded hidden size and the recorded
counts of layer descriptions and of layers equal the encoder's, and the extent of
every recorded derived-input image equals the extent of the live one. The recorded
per-layer sizes are not compared with the configured ones: after a successful
`load` the size of every layer description is the recorded size. -/
theorem load_ok_checks (e e1 : SparseFeaturesChunk) (fb : schemas.SparseFeatures)
    (h : e.load fb = .ok e1) :
    fb._sf._hiddenSize = e._hiddenSize
      ∧ fb._sf._visibleLayerDescs.length = e._visibleLayerDescs.length
      ∧ fb._sf._visibleLayers.length = e._visibleLayers.length
      ∧ List.Forall₂
          (fun (vl : VisibleLayer) (fbl : schemas.VisibleChunkLayer) =>
            vl._derivedInput.back.width = fbl._derivedInput._back.width
              ∧ vl._derivedInput.back.height = fbl._derivedInput._back.height)
          e._visibleLayers fb._sf._visibleLayers
      ∧ List.Forall₂
          (fun (d : VisibleLayerDesc) (fbd : schemas.VisibleChunkLayerDesc) => d._size = fbd._size)
          e1._visibleLayerDescs fb._sf._visibleLayerDescs := by
  obtain ⟨⟨_, hx, hy, hd, _, _, _, _, hl⟩, he⟩ := encoder_fits_of_load e e1 fb h
  refine ⟨?_, hd.symm, hl.length_eq.symm, ?_, ?_⟩
  · cases hs : fb._sf._hiddenSize with
    | mk a b =>
      cases hs1 : e._hiddenSize with
      | mk c d =>
        rw [hs, hs1] at hx hy
        simp only at hx hy
        rw [hx, hy]
  · refine hl.imp ?_
    intro vl fbl hf
    have hb := hf.1.2
    simp only [sameShape, decide_eq_true_eq] at hb
    exact ⟨hb.1, hb.2.1⟩
  · rw [he]
    exact loadDescs_sizes _ _ hd

/-- Witness of the amended C7: the encoder of section 8 of the specification loading its own
record. -/
theorem load_ok_checks_witness :
    demoEncoder.load demoRecord = .ok (demoEncoder.loaded demoRecord)
      ∧ (demoRecord._sf._hiddenSize = demoEncoder._hiddenSize
        ∧ demoRecord._sf._visibleLayerDescs.length = demoEncoder._visibleLayerDescs.length
        ∧ demoRecord._sf._visibleLayers.length = demoEncoder._visibleLayers.length
        ∧ List.Forall₂
            (fun (vl : VisibleLayer) (fbl : schemas.VisibleChunkLayer) =>
              vl._derivedInput.back.width = fbl._derivedInput._back.width
                ∧ vl._derivedInput.back.height = fbl._derivedInput._back.height)
            demoEncoder._visibleLayers demoRecord._sf._visibleLayers
        ∧ List.Forall₂
            (fun (d : VisibleLayerDesc) (fbd : schemas.VisibleChunkLayerDesc) =>
              d._size = fbd._size)
            (demoEncoder.loaded demoRecord)._visibleLayerDescs
            demoRecord._sf._visibleLayerDescs) :=
  ⟨encoder_load_of_fits _ _ demoEncoder_fits_demoRecord,
    load_ok_checks demoEncoder (demoEncoder.loaded demoRecord) demoRecord
      (encoder_load_of_fits _ _ demoEncoder_fits_demoRecord)⟩

theorem construct_hiddenStates_back (mem : Nat → Nat → Nat → Nat → Texel)
    (rnd : Nat → Nat → Nat → Nat → ℚ) (vlds : List VisibleLayerDesc)
    (hiddenSize chunkSize : cl_int2) (numSamples : Nat) (x y : Nat) (hx : x < hiddenSize.x)
    (hy : y < hiddenSize.y) :
    (SparseFeaturesChunk.construct mem rnd vlds hiddenSize chunkSize
      numSamples)._hiddenStates.back.pix x y 0 = ⟨0, 0⟩ := by
  show (enqueueFillImage _ ⟨0, 1, 0, 0⟩ zeroOrigin ⟨hiddenSize.x, hiddenSize.y, 1⟩).pix x y 0 = _
  rw [enqueueFillImage_pix _ _ _ ⟨rfl, rfl, rfl⟩ x y 0 hx hy Nat.zero_lt_one]
  rfl

/-- C10, the code at the failing input: in the encoder constructed for the
configuration of section 8 of the specification, with device memory holding 5 everywhere, the
back hidden state is a single-channel image and its cells hold 0 after construction (shown at
two corners), the same value as after `clearMemory`. -/
theorem construct_hidden_state_is_zero :
    demoEncoder._hiddenStates.back.order = ChannelOrder.CL_R
      ∧ demoEncoder._hiddenStates.back.pix 0 0 0 = ⟨0, 0⟩
      ∧ demoEncoder._hiddenStates.back.pix 3 3 0 = ⟨0, 0⟩
      ∧ demoEncoder.clearMemory._hiddenStates.back.pix 0 0 0
        = demoEncoder._hiddenStates.back.pix 0 0 0
      ∧ demoEncoder.clearMemory._hiddenStates.back.pix 3 3 0
        = demoEncoder._hiddenStates.back.pix 3 3 0 := by
  have h0 : demoEncoder._hiddenStates.back.pix 0 0 0 = ⟨0, 0⟩ :=
    construct_hiddenStates_back _ _ _ _ _ _ 0 0 (by decide) (by decide)
  have h3 : demoEncoder._hiddenStates.back.pix 3 3 0 = ⟨0, 0⟩ :=
    construct_hiddenStates_back _ _ _ _ _ _ 3 3 (by decide) (by decide)
  have hz := (clearMemory_zero_hidden demoEncoder (construct_wellShaped _ _ _ _ _ _))
  have hw : demoEncoder.clearMemory._hiddenStates.back.width = 4 :=
    (enqueueFillImage_shape _ _ _ _ _ (construct_wellShaped _ _ _ _ _ _).1.2).1
  have hh : demoEncoder.clearMemory._hiddenStates.back.height = 4 :=
    (enqueueFillImage_shape _ _ _ _ _ (construct_wellShaped _ _ _ _ _ _).1.2).2.1
  have hd : demoEncoder.clearMemory._hiddenStates.back.depth = 1 :=
    (enqueueFillImage_shape _ _ _ _ _ (construct_wellShaped _ _ _ _ _ _).1.2).2.2
  refine ⟨rfl, h0, h3, ?_, ?_⟩
  · rw [h0]
    exact hz 0 0 0 (by rw [hw]; decide) (by rw [hh]; decide) (by rw [hd]; decide)
  · rw [h3]
    exact hz 3 3 0 (by rw [hw]; decide) (by rw [hh]; decide) (by rw [hd]; decide)

/-! ### The shape invariant holds in every reachable state -/

theorem foldl_hasShape {α : Type} (f : Image → α → Image) (sz : size3)
    (hf : ∀ s a, s.hasShape sz → (f s a).hasShape sz) (l : List α) (st : Image)
    (h : st.hasShape sz) : (l.foldl f st).hasShape sz := by
  induction l generalizing st with
  | nil => exact h
  | cons a l ih => exact ih _ (hf _ _ h)

theorem inhibitChunk_hasShape (activations : Image) (hiddenSize chunkSize : cl_int2)
    (sz : size3) (st : Image) (c : cl_int2) (h : st.hasShape sz) :
    (inhibitChunk activations hiddenSize chunkSize st c).hasShape sz := by
  unfold inhibitChunk
  apply foldl_hasShape
  · intro s a hs
    exact hs
  · exact h

theorem sfcInhibit_hasShape (activations : Image) (hiddenSize chunkSize range : cl_int2)
    (sz sw : size3) (st win : Image) (h : st.hasShape sz) (hw : win.hasShape sw) :
    (sfcInhibit activations st win hiddenSize chunkSize range).1.hasShape sz
      ∧ (sfcInhibit activations st win hiddenSize chunkSize range).2.hasShape sw := by
  unfold sfcInhibit
  generalize ndRange range = chunks
  induction chunks generalizing st win with
  | nil => exact ⟨h, hw⟩
  | cons c chunks ih =>
    rw [List.foldl_cons]
    exact ih _ _ (inhibitChunk_hasShape _ _ _ _ _ _ h) hw

theorem activateLoop_shaped (K : Kernels) (hiddenSize chunkSize : cl_int2) (numSamples : Nat)
    (sz : size3) (vls : List VisibleLayer) (vlds : List VisibleLayerDesc)
    (visibleStates : List Image) (sum : DoubleBuffer)
    (h : List.Forall₂ (LayerShaped hiddenSize numSamples) vls vlds) (hs : sum.hasShape sz) :
    List.Forall₂ (LayerShaped hiddenSize numSamples)
        (activateLoop K hiddenSize chunkSize numSamples vls vlds visibleStates sum).1 vlds
      ∧ (activateLoop K hiddenSize chunkSize numSamples vls vlds visibleStates sum).2.hasShape
        sz := by
  induction h generalizing visibleStates sum with
  | nil => exact ⟨List.Forall₂.nil, hs⟩
  | cons hl _ ih =>
    rename_i vl vld vls vlds _
    have hswap : ∀ p : Pixels,
        (DoubleBuffer.swap { sum with front := sum.front.withPixels p }).hasShape sz :=
      fun _ => ⟨hs.2, hs.1⟩
    simp only [activateLoop, List.headD_cons, List.tail_cons]
    obtain ⟨h1, h2⟩ := ih visibleStates.tail _ (hswap _)
    exact ⟨List.Forall₂.cons ⟨⟨hl.1.1, hl.1.2⟩, ⟨hl.2.1.1, hl.2.1.2⟩, hl.2.2⟩ h1, h2⟩

theorem learnLoop_shaped (K : Kernels) (hiddenSize chunkSize : cl_int2) (numSamples : Nat)
    (chunkWinners : DoubleBuffer) (hs : cl_int2) (vls : List VisibleLayer)
    (vlds : List VisibleLayerDesc) (h : List.Forall₂ (LayerShaped hs numSamples) vls vlds) :
    List.Forall₂ (LayerShaped hs numSamples)
      (learnLoop K hiddenSize chunkSize numSamples chunkWinners vls vlds) vlds := by
  induction h with
  | nil => exact List.Forall₂.nil
  | cons hl _ ih =>
    simp only [learnLoop, List.headD_cons, List.tail_cons]
    exact List.Forall₂.cons ⟨hl.1, hl.2.1, ⟨hl.2.2.2, hl.2.2.1⟩⟩ ih

theorem clearLoop_shaped (hiddenSize : cl_int2) (numSamples : Nat) (vls : List VisibleLayer)
    (vlds : List VisibleLayerDesc)
    (h : List.Forall₂ (LayerShaped hiddenSize numSamples) vls vlds) :
    List.Forall₂ (LayerShaped hiddenSize numSamples) (clearLoop numSamples vls vlds) vlds := by
  induction h with
  | nil => exact List.Forall₂.nil
  | cons hl _ ih =>
    simp only [clearLoop, List.headD_cons, List.tail_cons]
    exact List.Forall₂.cons
      ⟨⟨hl.1.1, enqueueFillImage_shape _ _ _ _ _ hl.1.2⟩,
        ⟨hl.2.1.1, enqueueFillImage_shape _ _ _ _ _ hl.2.1.2⟩, hl.2.2⟩ ih

theorem activate_wellShaped (e : SparseFeaturesChunk) (K : Kernels) (visibleStates : List Image)
    (h : WellShaped e) : WellShaped (e.activate K visibleStates) := by
  obtain ⟨h1, h2, h3, h4, h5⟩ := h
  have hloop := activateLoop_shaped K e._hiddenSize e._chunkSize e._numSamples
    (region2 e._hiddenSize) e._visibleLayers e._visibleLayerDescs visibleStates
    { e._hiddenSummationTemp with
      back := enqueueFillImage e._hiddenSummationTemp.back ⟨0, 0, 0, 0⟩ zeroOrigin
        ⟨e._hiddenSize.x, e._hiddenSize.y, 1⟩ }
    h5 ⟨h4.1, enqueueFillImage_shape _ _ _ _ _ h4.2⟩
  have hinh := sfcInhibit_hasShape
    (e._hiddenActivations.front.withPixels
      (K.sfcActivate (activateLoop K e._hiddenSize e._chunkSize e._numSamples e._visibleLayers
        e._visibleLayerDescs visibleStates
        { e._hiddenSummationTemp with
          back := enqueueFillImage e._hiddenSummationTemp.back ⟨0, 0, 0, 0⟩ zeroOrigin
            ⟨e._hiddenSize.x, e._hiddenSize.y, 1⟩ }).2.back
        e._hiddenStates.back e._hiddenActivations.front e._hiddenSize))
    e._hiddenSize e._chunkSize
    ⟨chunksIn e._hiddenSize.x e._chunkSize.x, chunksIn e._hiddenSize.y e._chunkSize.y⟩
    _ _ e._hiddenStates.front e._chunkWinners.front h1.1 h3.1
  exact ⟨⟨hinh.1, h1.2⟩, ⟨h2.1, h2.2⟩, ⟨hinh.2, h3.2⟩, hloop.2, hloop.1⟩

theorem learn_wellShaped (e : SparseFeaturesChunk) (K : Kernels) (h : WellShaped e) :
    WellShaped (e.learn K) :=
  ⟨h.1, h.2.1, h.2.2.1, h.2.2.2.1, learnLoop_shaped _ _ _ _ _ _ _ _ h.2.2.2.2⟩

theorem stepEnd_wellShaped (e : SparseFeaturesChunk) (h : WellShaped e) :
    WellShaped e.stepEnd := by
  obtain ⟨h1, h2, h3, h4, h5⟩ := h
  refine ⟨⟨h1.2, h1.1⟩, ⟨h2.2, h2.1⟩, ⟨h3.2, h3.1⟩, h4, ?_⟩
  have hmap : e.stepEnd._visibleLayers = e._visibleLayers.map fun vl =>
      { vl with _derivedInput := vl._derivedInput.swap, _samples := vl._samples.swap } := rfl
  rw [hmap, List.forall₂_map_left_iff]
  exact h5.imp fun _ _ hl => ⟨⟨hl.1.2, hl.1.1⟩, ⟨hl.2.1.2, hl.2.1.1⟩, hl.2.2⟩

theorem clearMemory_wellShaped (e : SparseFeaturesChunk) (h : WellShaped e) :
    WellShaped e.clearMemory :=
  ⟨⟨h.1.1, enqueueFillImage_shape _ _ _ _ _ h.1.2⟩,
    ⟨h.2.1.1, enqueueFillImage_shape _ _ _ _ _ h.2.1.2⟩, h.2.2.1, h.2.2.2.1,
    clearLoop_shaped _ _ _ _ h.2.2.2.2⟩

theorem loadDescs_save (vlds ds : List VisibleLayerDesc) (h : vlds.length = ds.length) :
    loadDescs vlds (ds.map VisibleLayerDesc.save) = ds := by
  induction vlds generalizing ds with
  | nil =>
    cases ds with
    | nil => rfl
    | cons d ds => simp at h
  | cons vld vlds ih =>
    cases ds with
    | nil => simp at h
    | cons d ds =>
      simp only [List.length_cons, Nat.add_right_cancel_iff] at h
      simp only [List.map_cons, loadDescs, ih ds h]
      rfl

theorem loaded_hasShape (db a : DoubleBuffer) (s : size3) (hf : db.Fits (saveDoubleBuffer a))
    (ha : a.hasShape s) : (db.loaded (saveDoubleBuffer a)).hasShape s := by
  obtain ⟨f1, f2⟩ := hf
  simp only [sameShape, saveDoubleBuffer, saveImage, decide_eq_true_eq] at f1 f2
  obtain ⟨⟨a1, a2, a3⟩, ⟨b1, b2, b3⟩⟩ := ha
  exact ⟨⟨f1.1.trans a1, f1.2.1.trans a2, f1.2.2.trans a3⟩,
    ⟨f2.1.trans b1, f2.2.1.trans b2, f2.2.2.trans b3⟩⟩

theorem zipWith_loaded_shaped (hiddenSize : cl_int2) (numSamples : Nat)
    (al : List VisibleLayer) (vlds : List VisibleLayerDesc)
    (ha : List.Forall₂ (LayerShaped hiddenSize numSamples) al vlds) (bl : List VisibleLayer)
    (hf : List.Forall₂ VisibleLayer.Fits bl (al.map VisibleLayer.save)) :
    List.Forall₂ (LayerShaped hiddenSize numSamples)
      (List.zipWith VisibleLayer.loaded bl (al.map VisibleLayer.save)) vlds := by
  induction ha generalizing bl with
  | nil =>
    cases hf
    exact List.Forall₂.nil
  | cons hl _ ih =>
    rw [List.map_cons] at hf
    cases hf with
    | cons hf1 hf2 =>
      rw [List.map_cons, List.zipWith_cons_cons]
      exact List.Forall₂.cons
        ⟨loaded_hasShape _ _ _ hf1.1 hl.1, loaded_hasShape _ _ _ hf1.2.1 hl.2.1,
          loaded_hasShape _ _ _ hf1.2.2 hl.2.2⟩ (ih _ hf2)

theorem load_wellShaped (e A e1 : SparseFeaturesChunk) (hA : WellShaped A)
    (h : e.load A.save.1 = .ok e1) : WellShaped e1 := by
  obtain ⟨⟨_, _, _, hd, f1, f2, f3, f4, f5⟩, he⟩ := encoder_fits_of_load e e1 _ h
  obtain ⟨a1, a2, a3, a4, a5⟩ := hA
  have hsave : A.save.1._sf._visibleLayerDescs = A._visibleLayerDescs.map VisibleLayerDesc.save :=
    rfl
  rw [hsave, List.length_map] at hd
  have hdescs : e1._visibleLayerDescs = A._visibleLayerDescs := by
    rw [he]
    exact loadDescs_save _ _ hd
  have hh : e1._hiddenSize = A._hiddenSize := by rw [he]; rfl
  have hc : e1._chunkSize = A._chunkSize := by rw [he]; rfl
  have hn : e1._numSamples = A._numSamples := by rw [he]; rfl
  unfold WellShaped
  rw [hdescs, hh, hc, hn, he]
  exact ⟨loaded_hasShape _ _ _ f1 a1, loaded_hasShape _ _ _ f2 a2, loaded_hasShape _ _ _ f3 a3,
    loaded_hasShape _ _ _ f4 a4, zipWith_loaded_shaped _ _ _ _ a5 _ f5⟩

theorem reachable_wellShaped (e : SparseFeaturesChunk) (h : Reachable e) : WellShaped e := by
  induction h with
  | construct mem rnd vlds hiddenSize chunkSize numSamples =>
    exact construct_wellShaped _ _ _ _ _ _
  | activate e K visibleStates _ ih => exact activate_wellShaped _ _ _ ih
  | learn e K _ ih => exact learn_wellShaped _ _ ih
  | stepEnd e _ ih => exact stepEnd_wellShaped _ ih
  | clearMemory e _ ih => exact clearMemory_wellShaped _ ih
  | load e A e1 _ _ hl _ ihA => exact load_wellShaped e A e1 ihA hl

/-! ### The encoder after one step -/

theorem demoStepped_wellShaped : WellShaped demoStepped :=
  stepEnd_wellShaped _ (activate_wellShaped _ _ _ (construct_wellShaped _ _ _ _ _ _))

theorem demoStepped_hiddenStates_not_zero : ¬ AllZero demoStepped._hiddenStates.back :=
  oneWinner_not_allZero demoEncoder._hiddenSize demoEncoder._chunkSize _ _
    (activate_oneWinner demoEncoder demoKernels [demoInput] (by decide) (by decide)
      (by decide) (by decide))
    demoStepped_wellShaped.1.2 (by decide) (by decide)

theorem demoStepped_activation : (demoStepped._hiddenActivations.back.pix 1 2 0).r = 9 := by
  show (0 : ℚ) + ((1 : ℚ) + 4 * 2) = 9
  norm_num

theorem demoStepped_inputs :
    (demoStepped._visibleLayers.map fun vl =>
      ((vl._derivedInput.back.pix 1 2 0).r, (vl._samples.back.pix 1 2 0).r)) = [(9, 9)] := by
  show [(((1 : ℚ) + 4 * 2), ((1 : ℚ) + 4 * 2))] = [(9, 9)]
  norm_num

/-- Witness of C8 on the encoder of section 8 of the specification after one step on
`demoInput`: before the call the back hidden state holds the winners of that step
(it is not all zero), the back hidden activation holds 9 at cell `(1, 2)`, and the
layer's back derived input and back sample history hold 9 at cell `(1, 2)`. -/
theorem clearMemory_zeroes_and_keeps_weights_witness :
    WellShaped demoStepped
      ∧ (¬ AllZero demoStepped._hiddenStates.back
        ∧ (demoStepped._hiddenActivations.back.pix 1 2 0).r = 9
        ∧ (demoStepped._visibleLayers.map fun vl =>
            ((vl._derivedInput.back.pix 1 2 0).r, (vl._samples.back.pix 1 2 0).r)) = [(9, 9)])
      ∧ (AllZero demoStepped.clearMemory._hiddenStates.back
        ∧ AllZero demoStepped.clearMemory._hiddenActivations.back
        ∧ List.Forall₂
            (fun vl vl1 : VisibleLayer =>
              AllZero vl1._derivedInput.back
                ∧ AllZero vl1._samples.back
                ∧ vl1._samples.back.depth = demoStepped._numSamples
                ∧ vl1._weights = vl._weights)
            demoStepped._visibleLayers demoStepped.clearMemory._visibleLayers) :=
  ⟨demoStepped_wellShaped,
    ⟨demoStepped_hiddenStates_not_zero, demoStepped_activation, demoStepped_inputs⟩,
    clearMemory_zeroes_and_keeps_weights demoStepped demoStepped_wellShaped⟩

theorem chunksExact_eq_ceil (hidden chunk : Nat) (h : 0 < chunk) :
    chunksExact hidden chunk = Nat.ceil ((hidden : ℚ) / (chunk : ℚ)) := by
  have hq : (0 : ℚ) < (chunk : ℚ) := by exact_mod_cast h
  have key : ∀ c : Nat,
      c < chunksExact hidden chunk ↔ c < Nat.ceil ((hidden : ℚ) / (chunk : ℚ)) := by
    intro c
    rw [lt_chunksExact_iff _ _ h, Nat.lt_ceil, lt_div_iff₀ hq]
    exact_mod_cast Iff.rfl
  apply le_antisymm
  · by_contra hlt
    exact absurd ((key _).mp (not_le.mp hlt)) (lt_irrefl _)
  · by_contra hlt
    exact absurd ((key _).mpr (not_le.mp hlt)) (lt_irrefl _)

theorem chunksIn_eq_ceil (hidden chunk : Nat) (hb : hidden < 2 ^ 24) (h : 0 < chunk) :
    chunksIn hidden chunk = Nat.ceil ((hidden : ℚ) / (chunk : ℚ)) := by
  rw [chunksIn_eq_chunksExact hidden chunk hb h]
  exact chunksExact_eq_ceil hidden chunk h

/-! ### The chain of stimulus dispatches in `activate` -/

theorem stimulusLoop_length (K : Kernels) (hiddenSize chunkSize : cl_int2) (numSamples : Nat)
    (vls : List VisibleLayer) (vlds : List VisibleLayerDesc) (visibleStates : List Image)
    (a : Accumulator) :
    (stimulusLoop K hiddenSize chunkSize numSamples vls vlds visibleStates a).1.length
      = vls.length := by
  induction vls generalizing vlds visibleStates a with
  | nil => rfl
  | cons vl vls ih => simp only [stimulusLoop, List.length_cons, ih]

theorem stimulusLoop_distinct (K : Kernels) (hiddenSize chunkSize : cl_int2) (numSamples : Nat)
    (vls : List VisibleLayer) (vlds : List VisibleLayerDesc) (visibleStates : List Image)
    (a : Accumulator) (h : a.front ≠ a.back) :
    ∀ s ∈ (stimulusLoop K hiddenSize chunkSize numSamples vls vlds visibleStates a).1,
      s.reads ≠ s.writes := by
  induction vls generalizing vlds visibleStates a with
  | nil =>
    intro s hs
    simp [stimulusLoop] at hs
  | cons vl vls ih =>
    intro s hs
    simp only [stimulusLoop, List.mem_cons] at hs
    rcases hs with rfl | hs
    · exact fun hh => h hh.symm
    · exact ih _ _ _ (fun hh => h hh.symm) s hs

theorem stimulusLoop_head (K : Kernels) (hiddenSize chunkSize : cl_int2) (numSamples : Nat)
    (vls : List VisibleLayer) (vlds : List VisibleLayerDesc) (visibleStates : List Image)
    (a : Accumulator) :
    ∀ s ∈ (stimulusLoop K hiddenSize chunkSize numSamples vls vlds visibleStates a).1.head?,
      s.reads = a.back ∧ s.total = a.mem a.back := by
  cases vls with
  | nil =>
    intro s hs
    simp [stimulusLoop] at hs
  | cons vl vls =>
    intro s hs
    simp only [stimulusLoop, List.head?_cons, Option.mem_def, Option.some.injEq] at hs
    subst hs
    exact ⟨rfl, rfl⟩

theorem stimulusLoop_chain (K : Kernels) (hiddenSize chunkSize : cl_int2) (numSamples : Nat)
    (vls : List VisibleLayer) (vlds : List VisibleLayerDesc) (visibleStates : List Image)
    (a : Accumulator) :
    List.Chain' (fun s t : StimulusStage => t.reads = s.writes ∧ t.total = s.output)
      (stimulusLoop K hiddenSize chunkSize numSamples vls vlds visibleStates a).1 := by
  induction vls generalizing vlds visibleStates a with
  | nil => exact List.chain'_nil
  | cons vl vls ih =>
    simp only [stimulusLoop]
    rw [List.chain'_cons']
    refine ⟨?_, ih _ _ _⟩
    intro t ht
    obtain ⟨h1, h2⟩ := stimulusLoop_head K hiddenSize chunkSize numSamples vls vlds.tail
      visibleStates.tail _ t ht
    refine ⟨h1, ?_⟩
    rw [h2]
    exact Function.update_same _ _ _

theorem stimulusLoop_last (K : Kernels) (hiddenSize chunkSize : cl_int2) (numSamples : Nat)
    (vls : List VisibleLayer) (vlds : List VisibleLayerDesc) (visibleStates : List Image)
    (a : Accumulator) :
    (stimulusLoop K hiddenSize chunkSize numSamples vls vlds visibleStates a).2.back
        = ((stimulusLoop K hiddenSize chunkSize numSamples vls vlds visibleStates a).1.getLast?.map
            StimulusStage.writes).getD a.back
      ∧ (stimulusLoop K hiddenSize chunkSize numSamples vls vlds visibleStates a).2.mem
          (stimulusLoop K hiddenSize chunkSize numSamples vls vlds visibleStates a).2.back
        = ((stimulusLoop K hiddenSize chunkSize numSamples vls vlds visibleStates a).1.getLast?.map
            StimulusStage.output).getD (a.mem a.back) := by
  induction vls generalizing vlds visibleStates a with
  | nil => exact ⟨rfl, rfl⟩
  | cons vl vls ih =>
    simp only [stimulusLoop, List.getLast?_cons, Option.map_some', Option.getD_some]
    obtain ⟨h1, h2⟩ := ih vlds.tail visibleStates.tail
      { front := a.back
        back := a.front
        mem := Function.update a.mem a.front
          ((a.mem a.front).withPixels
            (K.sfcStimulus
              (vl._samples.front.withPixels
                (K.sfcAddSample
                  (vl._derivedInput.front.withPixels
                    (K.sfcDeriveInputs (visibleStates.headD default) vl._derivedInput.back
                      vl._derivedInput.front (vlds.headD default)._lambda
                      (vlds.headD default)._size))
                  vl._samples.back vl._samples.front numSamples (vlds.headD default)._size))
              (a.mem a.back) (a.mem a.front) vl._weights.back (vlds.headD default)._size
              vl._chunkToVisible chunkSize (vlds.headD default)._radius numSamples
              (vlds.headD default)._ignoreMiddle hiddenSize)) }
    refine ⟨h1.trans ?_, h2.trans ?_⟩
    · cases (stimulusLoop K hiddenSize chunkSize numSamples vls vlds.tail visibleStates.tail
        _).1.getLast? <;> rfl
    · cases (stimulusLoop K hiddenSize chunkSize numSamples vls vlds.tail visibleStates.tail
        _).1.getLast? with
      | none => exact Function.update_same _ _ _
      | some t => rfl

theorem stimulusLoop_toDoubleBuffer (K : Kernels) (hiddenSize chunkSize : cl_int2)
    (numSamples : Nat) (vls : List VisibleLayer) (vlds : List VisibleLayerDesc)
    (visibleStates : List Image) (a : Accumulator) (h : a.front ≠ a.back) :
    (stimulusLoop K hiddenSize chunkSize numSamples vls vlds visibleStates a).2.toDoubleBuffer
      = (activateLoop K hiddenSize chunkSize numSamples vls vlds visibleStates
          a.toDoubleBuffer).2 := by
  induction vls generalizing vlds visibleStates a with
  | nil => rfl
  | cons vl vls ih =>
    simp only [stimulusLoop, activateLoop]
    rw [ih _ _ _ (fun hh => h hh.symm)]
    congr 2
    simp only [Accumulator.toDoubleBuffer, DoubleBuffer.swap, Function.update_same,
      Function.update_noteq (fun hh => h hh.symm : a.back ≠ a.front)]

theorem stimulusLoop_sum (K : Kernels)
    (contrib : Image → Image → cl_int2 → cl_float2 → cl_int2 → Nat → Nat → Bool → cl_int2
      → Nat → Nat → Nat → ℚ)
    (hK : K.Additive contrib) (hiddenSize chunkSize : cl_int2) (numSamples : Nat)
    (vls : List VisibleLayer) (vlds : List VisibleLayerDesc) (visibleStates : List Image)
    (a : Accumulator) (x y z : Nat) :
    (((stimulusLoop K hiddenSize chunkSize numSamples vls vlds visibleStates a).2.mem
        (stimulusLoop K hiddenSize chunkSize numSamples vls vlds visibleStates a).2.back).pix
          x y z).r
      = ((a.mem a.back).pix x y z).r
        + ((stimulusLoop K hiddenSize chunkSize numSamples vls vlds visibleStates a).1.map
            fun s => s.contribution contrib hiddenSize chunkSize numSamples x y z).sum := by
  induction vls generalizing vlds visibleStates a with
  | nil => simp [stimulusLoop]
  | cons vl vls ih =>
    simp only [stimulusLoop, List.map_cons, List.sum_cons]
    rw [ih]
    simp only [Function.update_same, Image.withPixels, StimulusStage.contribution]
    rw [hK]
    ring

theorem fillBack_toDoubleBuffer (e : SparseFeaturesChunk) (a : Accumulator)
    (hdist : a.front ≠ a.back) (hrep : a.toDoubleBuffer = e._hiddenSummationTemp) :
    (a.fillBack e._hiddenSize).toDoubleBuffer
      = { e._hiddenSummationTemp with
          back := enqueueFillImage e._hiddenSummationTemp.back ⟨0, 0, 0, 0⟩ zeroOrigin
            ⟨e._hiddenSize.x, e._hiddenSize.y, 1⟩ } := by
  have hf : a.mem a.front = e._hiddenSummationTemp.front := congrArg DoubleBuffer.front hrep
  have hb : a.mem a.back = e._hiddenSummationTemp.back := congrArg DoubleBuffer.back hrep
  simp only [Accumulator.toDoubleBuffer, Accumulator.fillBack, Function.update_same,
    Function.update_noteq hdist, hf, hb]

/-- C11: within one `activate` call on an encoder with any number of layers, whose
summation buffer consists of two distinct device images: there is one stimulus
dispatch per layer; the first one reads as running total the image that was just
zero-filled; every later one reads exactly the image, and the content, that the
dispatch before it wrote; no dispatch reads and writes the same image; the activate
stage reads the image written by the last dispatch (the zero-filled image when there
is no layer). Hence, when the stimulus kernel outputs the total it reads plus the
layer's contribution and the zero fill covers the hidden grid, every cell of the
hidden grid fed to the activate stage holds the sum of all layers' contributions. -/
theorem activate_stimulus_chain (e : SparseFeaturesChunk) (K : Kernels)
    (visibleStates : List Image) (a : Accumulator) (hdist : a.front ≠ a.back)
    (hrep : a.toDoubleBuffer = e._hiddenSummationTemp) :
    (e.accumulate K visibleStates a).1.length = e._visibleLayers.length
      ∧ (∀ s ∈ (e.accumulate K visibleStates a).1.head?,
          s.reads = a.back
            ∧ s.total = enqueueFillImage e._hiddenSummationTemp.back ⟨0, 0, 0, 0⟩ zeroOrigin
                ⟨e._hiddenSize.x, e._hiddenSize.y, 1⟩)
      ∧ List.Chain' (fun s t : StimulusStage => t.reads = s.writes ∧ t.total = s.output)
          (e.accumulate K visibleStates a).1
      ∧ (∀ s ∈ (e.accumulate K visibleStates a).1, s.reads ≠ s.writes)
      ∧ (e.accumulate K visibleStates a).2.back
          = ((e.accumulate K visibleStates a).1.getLast?.map StimulusStage.writes).getD a.back
      ∧ (e.activate K visibleStates)._hiddenSummationTemp
          = (e.accumulate K visibleStates a).2.toDoubleBuffer
      ∧ (e.activate K visibleStates)._hiddenActivations.front
          = e._hiddenActivations.front.withPixels
              (K.sfcActivate
                (((e.accumulate K visibleStates a).1.getLast?.map StimulusStage.output).getD
                  (enqueueFillImage e._hiddenSummationTemp.back ⟨0, 0, 0, 0⟩ zeroOrigin
                    ⟨e._hiddenSize.x, e._hiddenSize.y, 1⟩))
                e._hiddenStates.back e._hiddenActivations.front e._hiddenSize)
      ∧ (∀ contrib : Image → Image → cl_int2 → cl_float2 → cl_int2 → Nat → Nat → Bool → cl_int2
            → Nat → Nat → Nat → ℚ,
          K.Additive contrib →
          e._hiddenSummationTemp.back.hasShape (region2 e._hiddenSize) →
          ∀ x y : Nat, x < e._hiddenSize.x → y < e._hiddenSize.y →
            ((((e.accumulate K visibleStates a).1.getLast?.map StimulusStage.output).getD
                (enqueueFillImage e._hiddenSummationTemp.back ⟨0, 0, 0, 0⟩ zeroOrigin
                  ⟨e._hiddenSize.x, e._hiddenSize.y, 1⟩)).pix x y 0).r
              = ((e.accumulate K visibleStates a).1.map fun s =>
                  s.contribution contrib e._hiddenSize e._chunkSize e._numSamples x y 0).sum) := by
  have hb : a.mem a.back = e._hiddenSummationTemp.back := congrArg DoubleBuffer.back hrep
  have hfill : (a.fillBack e._hiddenSize).mem (a.fillBack e._hiddenSize).back
      = enqueueFillImage e._hiddenSummationTemp.back ⟨0, 0, 0, 0⟩ zeroOrigin
          ⟨e._hiddenSize.x, e._hiddenSize.y, 1⟩ := by
    simp only [Accumulator.fillBack, Function.update_same, hb]
  have hdist0 : (a.fillBack e._hiddenSize).front ≠ (a.fillBack e._hiddenSize).back := hdist
  have hlast := stimulusLoop_last K e._hiddenSize e._chunkSize e._numSamples e._visibleLayers
    e._visibleLayerDescs visibleStates (a.fillBack e._hiddenSize)
  have hdb := stimulusLoop_toDoubleBuffer K e._hiddenSize e._chunkSize e._numSamples
    e._visibleLayers e._visibleLayerDescs visibleStates (a.fillBack e._hiddenSize) hdist0
  rw [fillBack_toDoubleBuffer e a hdist hrep] at hdb
  have hcontent : (e.accumulate K visibleStates a).2.mem (e.accumulate K visibleStates a).2.back
      = ((e.accumulate K visibleStates a).1.getLast?.map StimulusStage.output).getD
          (enqueueFillImage e._hiddenSummationTemp.back ⟨0, 0, 0, 0⟩ zeroOrigin
            ⟨e._hiddenSize.x, e._hiddenSize.y, 1⟩) := by
    rw [← hfill]
    exact hlast.2
  refine ⟨stimulusLoop_length _ _ _ _ _ _ _ _, ?_, stimulusLoop_chain _ _ _ _ _ _ _ _,
    stimulusLoop_distinct _ _ _ _ _ _ _ _ hdist0, hlast.1, ?_, ?_, ?_⟩
  · intro s hs
    obtain ⟨h1, h2⟩ := stimulusLoop_head K e._hiddenSize e._chunkSize e._numSamples
      e._visibleLayers e._visibleLayerDescs visibleStates (a.fillBack e._hiddenSize) s hs
    exact ⟨h1, h2.trans hfill⟩
  · show (activateLoop K e._hiddenSize e._chunkSize e._numSamples e._visibleLayers
      e._visibleLayerDescs visibleStates _).2 = _
    exact hdb.symm
  · rw [← hcontent]
    show e._hiddenActivations.front.withPixels
      (K.sfcActivate (activateLoop K e._hiddenSize e._chunkSize e._numSamples e._visibleLayers
        e._visibleLayerDescs visibleStates _).2.back _ _ _) = _
    rw [← hdb]
    rfl
  · intro contrib hK hshape x y hx hy
    rw [← hcontent]
    have hsum := stimulusLoop_sum K contrib hK e._hiddenSize e._chunkSize e._numSamples
      e._visibleLayers e._visibleLayerDescs visibleStates (a.fillBack e._hiddenSize) x y 0
    have hzero : (((a.fillBack e._hiddenSize).mem (a.fillBack e._hiddenSize).back).pix x y 0).r
        = 0 := by
      have hp := enqueueFillImage_pix e._hiddenSummationTemp.back ⟨0, 0, 0, 0⟩
        ⟨e._hiddenSize.x, e._hiddenSize.y, 1⟩ hshape x y 0 hx hy Nat.zero_lt_one
      rw [hfill, hp]
      cases e._hiddenSummationTemp.back.order <;> rfl
    rw [hzero, zero_add] at hsum
    exact hsum

theorem demoKernels_additive : demoKernels.Additive demoContribution := by
  intro samplesFront sumBack sumFront weightsBack visibleSize chunkToVisible chunkSize radius
    numSamples ignoreMiddle range x y z
  rfl

/-- Witness of C11 on the encoder of section 8 of the specification, whose summation buffer
is made of the device images 12 and 13, with the additive kernels of `demoKernels`:
the chain holds, and cell (1, 2) fed to the activate stage holds the sum of the
contributions, which is the input value 9. -/
theorem activate_stimulus_chain_witness :
    demoAccumulator.front ≠ demoAccumulator.back
      ∧ demoAccumulator.toDoubleBuffer = demoEncoder._hiddenSummationTemp
      ∧ ((demoEncoder.accumulate demoKernels [demoInput] demoAccumulator).1.length
            = demoEncoder._visibleLayers.length
        ∧ (∀ s ∈ (demoEncoder.accumulate demoKernels [demoInput] demoAccumulator).1.head?,
            s.reads = demoAccumulator.back
              ∧ s.total = enqueueFillImage demoEncoder._hiddenSummationTemp.back ⟨0, 0, 0, 0⟩
                  zeroOrigin ⟨demoEncoder._hiddenSize.x, demoEncoder._hiddenSize.y, 1⟩)
        ∧ List.Chain' (fun s t : StimulusStage => t.reads = s.writes ∧ t.total = s.output)
            (demoEncoder.accumulate demoKernels [demoInput] demoAccumulator).1
        ∧ (∀ s ∈ (demoEncoder.accumulate demoKernels [demoInput] demoAccumulator).1,
            s.reads ≠ s.writes)
        ∧ (demoEncoder.accumulate demoKernels [demoInput] demoAccumulator).2.back
            = ((demoEncoder.accumulate demoKernels [demoInput] demoAccumulator).1.getLast?.map
                StimulusStage.writes).getD demoAccumulator.back)
      ∧ demoKernels.Additive demoContribution
      ∧ demoEncoder._hiddenSummationTemp.back.hasShape (region2 demoEncoder._hiddenSize)
      ∧ ((((demoEncoder.accumulate demoKernels [demoInput] demoAccumulator).1.getLast?.map
              StimulusStage.output).getD
            (enqueueFillImage demoEncoder._hiddenSummationTemp.back ⟨0, 0, 0, 0⟩ zeroOrigin
              ⟨demoEncoder._hiddenSize.x, demoEncoder._hiddenSize.y, 1⟩)).pix 1 2 0).r
          = ((demoEncoder.accumulate demoKernels [demoInput] demoAccumulator).1.map fun s =>
              s.contribution demoContribution demoEncoder._hiddenSize demoEncoder._chunkSize
                demoEncoder._numSamples 1 2 0).sum
      ∧ ((demoEncoder.accumulate demoKernels [demoInput] demoAccumulator).1.map fun s =>
            s.contribution demoContribution demoEncoder._hiddenSize demoEncoder._chunkSize
              demoEncoder._numSamples 1 2 0).sum = 9 := by
  have hdist : demoAccumulator.front ≠ demoAccumulator.back := by decide
  have hrep : demoAccumulator.toDoubleBuffer = demoEncoder._hiddenSummationTemp := rfl
  have hshape : demoEncoder._hiddenSummationTemp.back.hasShape (region2 demoEncoder._hiddenSize) :=
    (construct_wellShaped _ _ _ _ _ _).2.2.2.1.2
  have h := activate_stimulus_chain demoEncoder demoKernels [demoInput] demoAccumulator hdist hrep
  refine ⟨hdist, hrep, ⟨h.1, h.2.1, h.2.2.1, h.2.2.2.1, h.2.2.2.2.1⟩, demoKernels_additive, hshape,
    h.2.2.2.2.2.2.2 demoContribution demoKernels_additive hshape 1 2 (by decide) (by decide), ?_⟩
  show (1 : ℚ) + 4 * 2 + 0 = 9
  norm_num

/-! ### The chunk grid -/

theorem ndRange_length (n : cl_int2) : (ndRange n).length = n.x * n.y := by
  unfold ndRange
  rw [List.length_map, List.length_range]

theorem ndRange_nodup (n : cl_int2) : (ndRange n).Nodup :=
  (ndRange_pairwise n).imp fun h hab => absurd (congrArg (rowMajor n) hab) (ne_of_lt h)

theorem hiddenPosition_chunkAndOffset (chunkSize q : cl_int2) :
    hiddenPosition chunkSize (chunkAndOffset chunkSize q).1 (chunkAndOffset chunkSize q).2 = q := by
  obtain ⟨x, y⟩ := q
  simp only [hiddenPosition, chunkAndOffset, cl_int2.mk.injEq]
  exact ⟨by rw [Nat.mul_comm]; exact Nat.div_add_mod x chunkSize.x,
    by rw [Nat.mul_comm]; exact Nat.div_add_mod y chunkSize.y⟩

theorem chunkAndOffset_hiddenPosition (chunkSize c d : cl_int2) (hx : d.x < chunkSize.x)
    (hy : d.y < chunkSize.y) : chunkAndOffset chunkSize (hiddenPosition chunkSize c d) = (c, d) := by
  obtain ⟨h1, h2⟩ := hiddenPosition_div_mod chunkSize c d hx hy
  unfold chunkAndOffset
  rw [h1, h2]

theorem chunkAndOffset_mem (hiddenSize chunkSize q : cl_int2) (hx : 0 < chunkSize.x)
    (hy : 0 < chunkSize.y) (hbx : hiddenSize.x < 2 ^ 24) (hby : hiddenSize.y < 2 ^ 24)
    (hqx : q.x < hiddenSize.x) (hqy : q.y < hiddenSize.y) :
    (chunkAndOffset chunkSize q).1
        ∈ ndRange ⟨chunksIn hiddenSize.x chunkSize.x, chunksIn hiddenSize.y chunkSize.y⟩
      ∧ InChunk hiddenSize chunkSize (chunkAndOffset chunkSize q).1
          (chunkAndOffset chunkSize q).2 := by
  refine ⟨(mem_ndRange _ _).mpr ⟨?_, ?_⟩, Nat.mod_lt _ hx, Nat.mod_lt _ hy, ?_, ?_⟩
  · exact (lt_chunksIn_iff _ _ _ hbx hx).mpr (lt_of_le_of_lt (Nat.div_mul_le_self _ _) hqx)
  · exact (lt_chunksIn_iff _ _ _ hby hy).mpr (lt_of_le_of_lt (Nat.div_mul_le_self _ _) hqy)
  · rw [hiddenPosition_chunkAndOffset]
    exact hqx
  · rw [hiddenPosition_chunkAndOffset]
    exact hqy

theorem unit_outside_dispatched_chunks (e : SparseFeaturesChunk) (c0 w q : cl_int2)
    (hr : chunksIn e._hiddenSize.x e._chunkSize.x ≤ c0.x)
    (hq : hiddenPosition e._chunkSize c0 w = q) :
    ¬ ∃ c ∈ ndRange e.chunkGrid, ∃ d : cl_int2,
        InChunk e._hiddenSize e._chunkSize c d ∧ hiddenPosition e._chunkSize c d = q := by
  rintro ⟨c, hc, d, hd, hpos⟩
  exact hiddenPosition_not_dispatched e._hiddenSize e._chunkSize e.chunkGrid c0 w c d hr hc hd
    (hpos.trans hq.symm)

/-- C12, counterexample: hidden size 16777217 x 1 with chunk size 2 x 1, all four
positive. The rounded-up quotient along x is 8388609, the chunk grid computed in
single precision has 8388608 chunks along x, and the hidden unit `(16777216, 0)`
belongs to no chunk of that grid. -/
theorem chunk_grid_short_above_float_range :
    (0 < bigEncoder._hiddenSize.x ∧ 0 < bigEncoder._hiddenSize.y
        ∧ 0 < bigEncoder._chunkSize.x ∧ 0 < bigEncoder._chunkSize.y)
      ∧ Nat.ceil ((bigEncoder._hiddenSize.x : ℚ) / (bigEncoder._chunkSize.x : ℚ)) = 8388609
      ∧ bigEncoder.chunkGrid = ⟨8388608, 1⟩
      ∧ (16777216 < bigEncoder._hiddenSize.x ∧ 0 < bigEncoder._hiddenSize.y
        ∧ ¬ ∃ c ∈ ndRange bigEncoder.chunkGrid, ∃ d : cl_int2,
            InChunk bigEncoder._hiddenSize bigEncoder._chunkSize c d
              ∧ hiddenPosition bigEncoder._chunkSize c d = ⟨16777216, 0⟩) :=
  ⟨⟨by decide, by decide, by decide, by decide⟩,
    (chunksExact_eq_ceil bigEncoder._hiddenSize.x bigEncoder._chunkSize.x (by decide)).symm.trans
      (by decide),
    by decide, by decide, by decide,
    unit_outside_dispatched_chunks bigEncoder ⟨8388608, 0⟩ ⟨0, 0⟩ ⟨16777216, 0⟩
      (by decide) (by decide)⟩

/-- C12, amended: for a positive chunk size and hidden extents below `2 ^ 24`, the
chunk grid that the constructor allocates (the
extent of the chunk-winner images) and over which the inhibit kernel of `activate`
and the one of `inhibit` are dispatched has the rounded-up quotient of hidden size
by chunk size in each direction, and exactly that many chunks. The map sending a
hidden unit `(x, y)` to chunk `(x / cw, y / ch)` and offset `(x % cw, y % ch)` is a
bijection from the hidden units onto the pairs of a dispatched chunk and an offset
inside that chunk's extent clipped to the hidden grid: every hidden unit belongs to
exactly one dispatched chunk and every dispatched chunk contains a hidden unit,
whether or not the hidden size is a multiple of the chunk size. -/
theorem chunk_grid_bijection (e : SparseFeaturesChunk) (hx : 0 < e._chunkSize.x)
    (hy : 0 < e._chunkSize.y) (hbx : e._hiddenSize.x < 2 ^ 24)
    (hby : e._hiddenSize.y < 2 ^ 24) :
    chunksIn e._hiddenSize.x e._chunkSize.x
        = Nat.ceil ((e._hiddenSize.x : ℚ) / (e._chunkSize.x : ℚ))
      ∧ chunksIn e._hiddenSize.y e._chunkSize.y
        = Nat.ceil ((e._hiddenSize.y : ℚ) / (e._chunkSize.y : ℚ))
      ∧ (∀ (mem : Nat → Nat → Nat → Nat → Texel) (rnd : Nat → Nat → Nat → Nat → ℚ)
          (vlds : List VisibleLayerDesc) (numSamples : Nat),
          (SparseFeaturesChunk.construct mem rnd vlds e._hiddenSize e._chunkSize
            numSamples)._chunkWinners.hasShape ⟨e.chunkGrid.x, e.chunkGrid.y, 1⟩)
      ∧ (∀ (K : Kernels) (visibleStates : List Image),
          ((e.activate K visibleStates)._hiddenStates.front,
              (e.activate K visibleStates)._chunkWinners.front)
            = sfcInhibit (e.activate K visibleStates)._hiddenActivations.front
                e._hiddenStates.front e._chunkWinners.front e._hiddenSize e._chunkSize
                e.chunkGrid)
      ∧ (∀ activations states : Image,
          e.inhibit activations states
            = sfcInhibitOther activations states e._hiddenSize e._chunkSize e.chunkGrid)
      ∧ (ndRange e.chunkGrid).length = e.chunkGrid.x * e.chunkGrid.y
      ∧ (ndRange e.chunkGrid).Nodup
      ∧ (∀ c : cl_int2, c ∈ ndRange e.chunkGrid ↔ c.x < e.chunkGrid.x ∧ c.y < e.chunkGrid.y)
      ∧ Set.BijOn (chunkAndOffset e._chunkSize)
          {q : cl_int2 | q.x < e._hiddenSize.x ∧ q.y < e._hiddenSize.y}
          {p : cl_int2 × cl_int2 |
            p.1 ∈ ndRange e.chunkGrid ∧ InChunk e._hiddenSize e._chunkSize p.1 p.2}
      ∧ (∀ q : cl_int2, q.x < e._hiddenSize.x → q.y < e._hiddenSize.y →
          ∃! c : cl_int2, c ∈ ndRange e.chunkGrid
            ∧ ∃ d : cl_int2, InChunk e._hiddenSize e._chunkSize c d
              ∧ hiddenPosition e._chunkSize c d = q)
      ∧ (∀ c : cl_int2, c ∈ ndRange e.chunkGrid →
          ∃ d : cl_int2, InChunk e._hiddenSize e._chunkSize c d) := by
  refine ⟨chunksIn_eq_ceil _ _ hbx hx, chunksIn_eq_ceil _ _ hby hy, ?_, ?_, ?_, ndRange_length _,
    ndRange_nodup _, fun c => mem_ndRange _ c, ?_, ?_, ?_⟩
  · intro mem rnd vlds numSamples
    exact ⟨⟨rfl, rfl, rfl⟩, ⟨rfl, rfl, rfl⟩⟩
  · intro K visibleStates
    rfl
  · intro activations states
    rfl
  · refine Set.BijOn.mk ?_ ?_ ?_
    · intro q hq
      exact chunkAndOffset_mem e._hiddenSize e._chunkSize q hx hy hbx hby hq.1 hq.2
    · intro q _ q1 _ heq
      rw [← hiddenPosition_chunkAndOffset e._chunkSize q,
        ← hiddenPosition_chunkAndOffset e._chunkSize q1, heq]
    · rintro ⟨c, d⟩ ⟨_, hd⟩
      exact ⟨hiddenPosition e._chunkSize c d, ⟨hd.2.2.1, hd.2.2.2⟩,
        chunkAndOffset_hiddenPosition e._chunkSize c d hd.1 hd.2.1⟩
  · intro q hqx hqy
    obtain ⟨hc, hd⟩ := chunkAndOffset_mem e._hiddenSize e._chunkSize q hx hy hbx hby hqx hqy
    refine ⟨(chunkAndOffset e._chunkSize q).1,
      ⟨hc, (chunkAndOffset e._chunkSize q).2, hd, hiddenPosition_chunkAndOffset _ _⟩, ?_⟩
    rintro c ⟨_, d, hin, hpos⟩
    rw [← hpos, chunkAndOffset_hiddenPosition e._chunkSize c d hin.1 hin.2.1]
  · intro c hc
    obtain ⟨hcx, hcy⟩ := (mem_ndRange _ c).mp hc
    exact ⟨⟨0, 0⟩, hx, hy, (lt_chunksIn_iff _ _ _ hbx hx).mp hcx,
      (lt_chunksIn_iff _ _ _ hby hy).mp hcy⟩

/-- Witness of the amended C12 on the encoder of section 8 of the specification: hidden
size 4x4 and chunk size 2x2 give a chunk grid of 2x2. -/
theorem chunk_grid_bijection_witness :
    0 < demoEncoder._chunkSize.x ∧ 0 < demoEncoder._chunkSize.y
      ∧ demoEncoder._hiddenSize.x < 2 ^ 24 ∧ demoEncoder._hiddenSize.y < 2 ^ 24
      ∧ demoEncoder.chunkGrid = ⟨2, 2⟩
      ∧ (chunksIn demoEncoder._hiddenSize.x demoEncoder._chunkSize.x
        = Nat.ceil ((demoEncoder._hiddenSize.x : ℚ) / (demoEncoder._chunkSize.x : ℚ))
      ∧ chunksIn demoEncoder._hiddenSize.y demoEncoder._chunkSize.y
        = Nat.ceil ((demoEncoder._hiddenSize.y : ℚ) / (demoEncoder._chunkSize.y : ℚ))
      ∧ (∀ (mem : Nat → Nat → Nat → Nat → Texel) (rnd : Nat → Nat → Nat → Nat → ℚ)
          (vlds : List VisibleLayerDesc) (numSamples : Nat),
          (SparseFeaturesChunk.construct mem rnd vlds demoEncoder._hiddenSize demoEncoder._chunkSize
            numSamples)._chunkWinners.hasShape ⟨demoEncoder.chunkGrid.x, demoEncoder.chunkGrid.y, 1⟩)
      ∧ (∀ (K : Kernels) (visibleStates : List Image),
          ((demoEncoder.activate K visibleStates)._hiddenStates.front,
              (demoEncoder.activate K visibleStates)._chunkWinners.front)
            = sfcInhibit (demoEncoder.activate K visibleStates)._hiddenActivations.front
                demoEncoder._hiddenStates.front demoEncoder._chunkWinners.front demoEncoder._hiddenSize demoEncoder._chunkSize
                demoEncoder.chunkGrid)
      ∧ (∀ activations states : Image,
          demoEncoder.inhibit activations states
            = sfcInhibitOther activations states demoEncoder._hiddenSize demoEncoder._chunkSize demoEncoder.chunkGrid)
      ∧ (ndRange demoEncoder.chunkGrid).length = demoEncoder.chunkGrid.x * demoEncoder.chunkGrid.y
      ∧ (ndRange demoEncoder.chunkGrid).Nodup
      ∧ (∀ c : cl_int2, c ∈ ndRange demoEncoder.chunkGrid ↔ c.x < demoEncoder.chunkGrid.x ∧ c.y < demoEncoder.chunkGrid.y)
      ∧ Set.BijOn (chunkAndOffset demoEncoder._chunkSize)
          {q : cl_int2 | q.x < demoEncoder._hiddenSize.x ∧ q.y < demoEncoder._hiddenSize.y}
          {p : cl_int2 × cl_int2 |
            p.1 ∈ ndRange demoEncoder.chunkGrid ∧ InChunk demoEncoder._hiddenSize demoEncoder._chunkSize p.1 p.2}
      ∧ (∀ q : cl_int2, q.x < demoEncoder._hiddenSize.x → q.y < demoEncoder._hiddenSize.y →
          ∃! c : cl_int2, c ∈ ndRange demoEncoder.chunkGrid
            ∧ ∃ d : cl_int2, InChunk demoEncoder._hiddenSize demoEncoder._chunkSize c d
              ∧ hiddenPosition demoEncoder._chunkSize c d = q)
      ∧ (∀ c : cl_int2, c ∈ ndRange demoEncoder.chunkGrid →
          ∃ d : cl_int2, InChunk demoEncoder._hiddenSize demoEncoder._chunkSize c d)) :=
  ⟨by decide, by decide, by decide, by decide, by decide,
    chunk_grid_bijection demoEncoder (by decide) (by decide) (by decide) (by decide)⟩

end ogmaneo
